import Mathlib

/-!
Verification development for the RoxieStreams playlist generator
(source: src/rox.py).  The Python program is shallowly embedded below:
pure string manipulation (regex matching, URL parsing and joining, HTML
entity decoding, title cleaning) is translated into executable Lean
functions over List Char / String; the network boundary (requests) and
the HTML parser (BeautifulSoup) are external collaborators and are
modelled as an explicit fetch environment returning parsed-document
observations (tag/attribute access results).
-/

/-! ### Basic character classes and list/string helpers -/

/-- Backquote character, written by code point to keep source plain. -/
def backquoteChar : Char := Char.ofNat 96

/-- Apostrophe character, written by code point to keep source plain. -/
def aposChar : Char := Char.ofNat 39

/-- Python whitespace (both the regex backslash-s class and str.split /
str.strip), restricted to the ASCII whitespace characters plus the
no-break space: space, tab, newline, carriage return, vertical tab, form
feed, U+00A0.  This is what Python matches for the inputs this program
sees. -/
def isPySpace (c : Char) : Bool :=
  c = ' ' || c = '\t' || c = '\n' || c = '\r' || c = Char.ofNat 11 || c = Char.ofNat 12 ||
  c = Char.ofNat 160

/-- Characters allowed inside the URL body and the query of M3U8_RE: the
negated class excludes whitespace, double quote, single quote, angle
brackets and the backquote. -/
def isUrlChar (c : Char) : Bool :=
  !(isPySpace c || c = '"' || c = aposChar || c = '<' || c = '>' || c = backquoteChar)

/-- Case-insensitive prefix test (the pattern chars are compared lowered,
mirroring re.IGNORECASE on ASCII). -/
def startsWithCI : List Char → List Char → Bool
  | [], _ => true
  | _ :: _, [] => false
  | p :: ps, c :: cs => (p.toLower = c.toLower) && startsWithCI ps cs

/-- Exact (case-sensitive) prefix test on char lists. -/
def startsWithEq : List Char → List Char → Bool
  | [], _ => true
  | _ :: _, [] => false
  | p :: ps, c :: cs => (p = c) && startsWithEq ps cs

/-- Substring containment on char lists (Python's `needle in hay`). -/
def containsSub (needle : List Char) : List Char → Bool
  | [] => needle.isEmpty
  | c :: t => startsWithEq needle (c :: t) || containsSub needle t

/-- Case-insensitive substring containment on char lists. -/
def containsSubCI (needle : List Char) : List Char → Bool
  | [] => needle.isEmpty
  | c :: t => startsWithCI needle (c :: t) || containsSubCI needle t

/-- Case-insensitive suffix test. -/
def endsWithCI (p s : List Char) : Bool := startsWithCI p.reverse s.reverse

/-- Python `s in t` on strings. -/
def strIn (needle hay : String) : Bool := containsSub needle.data hay.data

/-- Python s.startswith(pre) on strings. -/
def strStarts (s pre : String) : Bool := startsWithEq pre.data s.data

/-- Drop matching characters from the right end of a list. -/
def trimRightL (p : Char → Bool) (t : List Char) : List Char :=
  (t.reverse.dropWhile p).reverse

/-- Python str.strip() (whitespace from both ends) on char lists. -/
def pyStripL (t : List Char) : List Char := trimRightL isPySpace (t.dropWhile isPySpace)

/-- Python str.strip() on strings. -/
def pyStrip (s : String) : String := ⟨pyStripL s.data⟩

/-- Lower-case a string (ASCII, as Python str.lower on this program's data). -/
def lowerStr (s : String) : String := ⟨s.data.map Char.toLower⟩

/-- Python truthiness-based `a or b` on strings (empty string is falsy). -/
def pyOrS (a b : String) : String := if a = "" then b else a

/-- Python `opt or b` where opt is None or a string. -/
def pyOrOptS (a : Option String) (b : String) : String :=
  match a with
  | none => b
  | some s => if s = "" then b else s

/-! ### The manifest URL pattern M3U8_RE

The source regex is (case-insensitive)

  (https?://[^ws-quote-angle-backquote]+?[.]m3u8([?][^ws-quote-angle-backquote]*)?)

modelled by an explicit leftmost, shortest-body (non-greedy) matcher. -/

/-- Match the scheme alternative https?:// at the head of the list;
returns the consumed characters and the rest. -/
def schemeSplit (s : List Char) : Option (List Char × List Char) :=
  if startsWithCI "https://".data s then some (s.take 8, s.drop 8)
  else if startsWithCI "http://".data s then some (s.take 7, s.drop 7)
  else none

/-- Non-greedy URL-body scan: consume at least one url character, stopping at
the earliest point where ".m3u8" (case-insensitive) follows; returns the
consumed characters including the ".m3u8" part, and the rest. -/
def bodyScan : List Char → Option (List Char × List Char)
  | [] => none
  | c :: rest =>
    if isUrlChar c then
      if startsWithCI ".m3u8".data rest then some (c :: rest.take 5, rest.drop 5)
      else
        match bodyScan rest with
        | some (core, r) => some (c :: core, r)
        | none => none
    else none

/-- Greedy optional query group: a question mark followed by the longest run
of url characters; returns the consumed characters and the rest. -/
def querySplit (s : List Char) : List Char × List Char :=
  match s with
  | '?' :: rest => ('?' :: rest.takeWhile isUrlChar, rest.dropWhile isUrlChar)
  | _ => ([], s)

/-- Attempt a match of M3U8_RE anchored at the head of the list; returns the
matched characters and the remainder after the match. -/
def matchAtFull (s : List Char) : Option (List Char × List Char) :=
  match schemeSplit s with
  | none => none
  | some (sch, rest) =>
    match bodyScan rest with
    | none => none
    | some (core, rest2) =>
      some (sch ++ core ++ (querySplit rest2).1, (querySplit rest2).2)

/-- The matched characters of an anchored match of M3U8_RE, if any. -/
def matchAt (s : List Char) : Option (List Char) :=
  (matchAtFull s).map (fun p => p.1)

/-- re.search for M3U8_RE: the match at the leftmost position where one
exists (Python scans start positions left to right). -/
def m3u8SearchList : List Char → Option (List Char)
  | [] => none
  | c :: rest =>
    match matchAt (c :: rest) with
    | some u => some u
    | none => m3u8SearchList rest

/-- re.findall for M3U8_RE: all non-overlapping matches in order, scanning
resumes after each match (fuel-based structural recursion; the fuel is the
input length, always sufficient since every match consumes characters). -/
def m3u8FindAllAux : Nat → List Char → List (List Char)
  | 0, _ => []
  | fuel + 1, t =>
    match t with
    | [] => []
    | c :: rest =>
      match matchAtFull (c :: rest) with
      | some (u, r) => u :: m3u8FindAllAux fuel r
      | none => m3u8FindAllAux fuel rest

/-- re.findall for M3U8_RE over a char list. -/
def m3u8FindAll (t : List Char) : List (List Char) := m3u8FindAllAux t.length t

/-! ### urllib.parse model: urlsplit / urlparse components and urljoin -/

/-- Valid scheme characters (letters, digits, plus, minus, dot). -/
def isSchemeChar (c : Char) : Bool := c.isAlpha || c.isDigit || c = '+' || c = '-' || c = '.'

/-- Split the scheme from a URL the way urllib.parse does: the part before
the first colon, provided it is nonempty, starts with a letter and consists
of scheme characters; the scheme is returned lower-cased. -/
def splitScheme (url : List Char) : List Char × List Char :=
  let pre := url.takeWhile (fun c => c ≠ ':')
  if pre.length < url.length ∧ pre ≠ [] ∧
      pre.head?.any Char.isAlpha ∧ pre.all isSchemeChar then
    (pre.map Char.toLower, url.drop (pre.length + 1))
  else ([], url)

/-- Split the network location: if the remainder starts with two slashes,
the netloc runs until the first slash, question mark or hash. -/
def splitNetloc (u : List Char) : List Char × List Char :=
  if u.take 2 = ['/', '/'] then
    let nl := (u.drop 2).takeWhile (fun c => c ≠ '/' ∧ c ≠ '?' ∧ c ≠ '#')
    (nl, u.drop (2 + nl.length))
  else ([], u)

/-- Split a list at the first occurrence of a character: (before, after);
when the character does not occur the second component is empty, which
matches urllib because an empty fragment/query behaves like an absent one. -/
def splitAtChar (ch : Char) (u : List Char) : List Char × List Char :=
  let pre := u.takeWhile (fun c => c ≠ ch)
  if pre.length < u.length then (pre, u.drop (pre.length + 1)) else (u, [])

/-- Components of urlsplit: scheme, netloc, path, query, fragment.
Mirrors urllib.parse.urlsplit: scheme first, then netloc, then the fragment
is split off before the query. -/
def urlsplitL (url : List Char) : List Char × List Char × List Char × List Char × List Char :=
  let s := splitScheme url
  let n := splitNetloc s.2
  let f := splitAtChar '#' n.2
  let q := splitAtChar '?' f.1
  (s.1, n.1, q.1, q.2, f.2)

/-- The scheme component of urlparse/urlsplit. -/
def urlScheme (url : List Char) : List Char := (urlsplitL url).1

/-- Split path parameters as urllib.parse._splitparams does for urlparse:
the part after a semicolon in the last path segment is dropped. -/
def splitParamsPath (p : List Char) : List Char :=
  if containsSub ['/'] p then
    let afterIdx := p.length - (p.reverse.takeWhile (fun c => c ≠ '/')).length
    let tail := p.drop afterIdx
    let pre := tail.takeWhile (fun c => c ≠ ';')
    if pre.length < tail.length then p.take afterIdx ++ pre else p
  else
    let pre := p.takeWhile (fun c => c ≠ ';')
    if pre.length < p.length then pre else p

/-- The path component of urlparse (urlsplit path with parameters split off). -/
def urlPath (url : List Char) : List Char := splitParamsPath (urlsplitL url).2.2.1

/-- urlunsplit: reassemble a URL from components. -/
def urlunsplitL (s n p q f : List Char) : List Char :=
  let url := p
  let url :=
    if n ≠ [] ∨ url.take 2 = ['/', '/'] then
      let u2 := if url ≠ [] ∧ url.head? ≠ some '/' then '/' :: url else url
      '/' :: '/' :: (n ++ u2)
    else url
  let url := if s ≠ [] then s ++ (':' :: url) else url
  let url := if q ≠ [] then url ++ ('?' :: q) else url
  if f ≠ [] then url ++ ('#' :: f) else url

/-- Schemes that allow relative resolution (urllib.parse.uses_relative). -/
def usesRelative : List (List Char) :=
  ["".data, "ftp".data, "http".data, "gopher".data, "nntp".data, "imap".data,
   "wais".data, "file".data, "https".data, "shttp".data, "mms".data,
   "prospero".data, "rtsp".data, "rtspu".data, "sftp".data, "svn".data,
   "svn+ssh".data, "ws".data, "wss".data]

/-- Schemes that use a network location (urllib.parse.uses_netloc). -/
def usesNetloc : List (List Char) :=
  ["".data, "ftp".data, "http".data, "gopher".data, "nntp".data, "telnet".data,
   "imap".data, "wais".data, "file".data, "mms".data, "https".data, "shttp".data,
   "snews".data, "prospero".data, "rtsp".data, "rtspu".data, "rsync".data,
   "svn".data, "svn+ssh".data, "sftp".data, "nfs".data, "git".data,
   "git+ssh".data, "ws".data, "wss".data]

/-- Dot-segment resolution loop of urljoin (pop on "..", skip on "."). -/
def resolveSegs (segs : List (List Char)) : List (List Char) :=
  segs.foldl
    (fun acc seg =>
      if seg = "..".data then acc.dropLast
      else if seg = ".".data then acc
      else acc ++ [seg])
    []

/-- urllib.parse.urljoin on char lists, mirroring the CPython implementation
(parameters of urlparse are not modelled separately; this program never
builds URLs with path parameters). -/
def urljoinL (base url : List Char) : List Char :=
  if base = [] then url
  else if url = [] then base
  else
    let b := urlsplitL base
    let bscheme := b.1
    let bnetloc := b.2.1
    let bpath := b.2.2.1
    let bquery := b.2.2.2.1
    let r := urlsplitL url
    let scheme := if r.1 = [] then bscheme else r.1
    let netloc := r.2.1
    let path := r.2.2.1
    let query := r.2.2.2.1
    let fragment := r.2.2.2.2
    if scheme ≠ bscheme ∨ ¬ scheme ∈ usesRelative then url
    else
      let stepNetloc : Bool := scheme ∈ usesNetloc
      if stepNetloc ∧ netloc ≠ [] then urlunsplitL scheme netloc path query fragment
      else
        let netloc := if stepNetloc then bnetloc else netloc
        if path = [] then
          urlunsplitL scheme netloc bpath (if query = [] then bquery else query) fragment
        else
          let baseParts := bpath.splitOn '/'
          let baseParts :=
            if baseParts.getLast? = some [] ∨ baseParts = [] then baseParts
            else baseParts.dropLast
          let segments :=
            if path.head? = some '/' then path.splitOn '/'
            else
              let segs := baseParts ++ path.splitOn '/'
              match segs with
              | [] => []
              | s0 :: rest =>
                match rest.getLast? with
                | none => [s0]
                | some last => s0 :: ((rest.dropLast.filter (fun s => s ≠ [])) ++ [last])
          let resolved := resolveSegs segments
          let resolved :=
            if segments.getLast? = some ".".data ∨ segments.getLast? = some "..".data then
              resolved ++ [[]]
            else resolved
          let joined := (resolved.intersperse ['/']).flatten
          urlunsplitL scheme netloc (if joined = [] then ['/'] else joined) query fragment

/-- urljoin on strings (abs_url in the source is urljoin with a None guard). -/
def urljoin (base url : String) : String := ⟨urljoinL base.data url.data⟩

/-! ### extract_m3u8_from_text (ManifestUrlExtractor.extract) -/

/-- Return the first clean m3u8 URL found in text, else none
(src/rox.py lines 67-81).  The protocol-relative fix and the base join are
kept exactly as in the source. -/
def extract_m3u8_from_text (text : String) (base : Option String) : Option String :=
  if text = "" then none
  else
    match m3u8SearchList text.data with
    | none => none
    | some url =>
      let url := if url.take 2 = ['/', '/'] then "https:".data ++ url else url
      let url :=
        match base with
        | some b => if b ≠ "" ∧ urlScheme url = [] then urljoinL b.data url else url
        | none => url
      some ⟨url⟩

/-! ### html.unescape model

Named character references are decoded with the standard resolution
algorithm (exact-key lookup, then longest known prefix of length at least
two, else the text is kept) over a representative subset of the HTML5
entity table containing the entities this program's pages use.  Numeric
character references are left undecoded; no theorem below depends on them.
-/

/-- Characters allowed in an entity name by html._charref:
everything except tab, newline, form feed, space, less-than, ampersand,
hash and semicolon. -/
def isEntNameChar (c : Char) : Bool :=
  !(c = '\t' || c = '\n' || c = Char.ofNat 12 || c = ' ' || c = '<' || c = '&' || c = '#' || c = ';')

/-- Subset of the html5 named-entity table (keys with and without the
trailing semicolon, as in Python's html module). -/
def entityTable : List (List Char × List Char) :=
  [("amp;".data, "&".data), ("amp".data, "&".data),
   ("AMP;".data, "&".data), ("AMP".data, "&".data),
   ("lt;".data, "<".data), ("lt".data, "<".data),
   ("LT;".data, "<".data), ("LT".data, "<".data),
   ("gt;".data, ">".data), ("gt".data, ">".data),
   ("GT;".data, ">".data), ("GT".data, ">".data),
   ("quot;".data, "\"".data), ("quot".data, "\"".data),
   ("QUOT;".data, "\"".data), ("QUOT".data, "\"".data),
   ("apos;".data, [aposChar]),
   ("nbsp;".data, [Char.ofNat 160]), ("nbsp".data, [Char.ofNat 160])]

/-- Exact lookup in the entity table. -/
def entityLookup (k : List Char) : Option (List Char) :=
  (entityTable.find? (fun e => decide (e.1 = k))).map (fun e => e.2)

/-- Longest known strict prefix of length at least two (the fallback loop of
html._replace_charref), returning the replacement and the leftover suffix. -/
def longestEntity : Nat → List Char → Option (List Char × List Char)
  | 0, _ => none
  | 1, _ => none
  | n + 1, s =>
    match entityLookup (s.take (n + 1)) with
    | some v => some (v, s.drop (n + 1))
    | none => longestEntity n s

/-- html._replace_charref on a matched named group (with optional trailing
semicolon included in the key). -/
def replaceCharref (s : List Char) : List Char :=
  match entityLookup s with
  | some v => v
  | none =>
    match longestEntity (s.length - 1) s with
    | some (v, rest) => v ++ rest
    | none => '&' :: s

/-- html.unescape scan (fuel-based; the fuel is the input length, always
sufficient because every step consumes at least one character). -/
def unescapeAux : Nat → List Char → List Char
  | 0, t => t
  | fuel + 1, t =>
    match t with
    | [] => []
    | c :: rest =>
      if c = '&' then
        let raw := rest.takeWhile isEntNameChar
        if raw = [] then '&' :: unescapeAux fuel rest
        else
          let nm := raw.take 32
          let after := rest.drop nm.length
          if after.head? = some ';' then
            replaceCharref (nm ++ [';']) ++ unescapeAux fuel after.tail
          else
            replaceCharref nm ++ unescapeAux fuel after
      else c :: unescapeAux fuel rest

/-- html.unescape on char lists. -/
def unescapeL (t : List Char) : List Char := unescapeAux t.length t

/-! ### clean_event_title (TitleNormalizer.clean) -/

/-- Whitespace collapse, Python's " ".join(t.split()): runs of whitespace
become single spaces, leading and trailing whitespace is dropped.  The two
flags track whether a word has been emitted and whether whitespace was seen
since the last word character. -/
def collapseAux : List Char → Bool → Bool → List Char
  | [], _, _ => []
  | c :: rest, started, pending =>
    if isPySpace c then collapseAux rest started true
    else (if started ∧ pending then [' ', c] else [c]) ++ collapseAux rest true false

/-- Whitespace collapse on char lists. -/
def collapseL (t : List Char) : List Char := collapseAux t false false

/-- Anchored test for the pattern: whitespace*, a dash, whitespace*, then
the given literal case-insensitively (the head of the suffix-stripping
regexes; the trailing dot-star-dollar always matches on newline-free text). -/
def matchesDashLit (lit : List Char) (s : List Char) : Bool :=
  match s.dropWhile isPySpace with
  | [] => false
  | c :: r => c = '-' && startsWithCI lit (r.dropWhile isPySpace)

/-- re.sub of a suffix-stripping rule: delete from the leftmost position
matching whitespace*-dash-whitespace*-literal to the end of the string. -/
def subDashLit (lit : List Char) : List Char → List Char
  | [] => []
  | c :: r => if matchesDashLit lit (c :: r) then [] else c :: subDashLit lit r

/-- Anchored test for the pipe-stripping pattern: whitespace* then a pipe. -/
def matchesPipe (s : List Char) : Bool :=
  (s.dropWhile isPySpace).head? = some '|'

/-- re.sub of the pipe rule: delete from the leftmost position matching
whitespace*-pipe to the end. -/
def subPipe : List Char → List Char
  | [] => []
  | c :: r => if matchesPipe (c :: r) then [] else c :: subPipe r

/-- Membership in the final strip set " -,:". -/
def isStripSetChar (c : Char) : Bool := c = ' ' || c = '-' || c = ',' || c = ':'

/-- Python t.strip(" -,:"). -/
def stripSetL (t : List Char) : List Char :=
  trimRightL isStripSetChar (t.dropWhile isStripSetChar)

/-- Title-cleaning pipeline on a nonempty raw title (src/rox.py 83-101):
unescape, strip, collapse whitespace, the four ordered suffix-stripping
substitutions, the pipe substitution, and the final character strip. -/
def cleanL (t : List Char) : List Char :=
  stripSetL (subPipe
    (subDashLit "Live Stream".data
      (subDashLit "Watch".data
        (subDashLit "Watch Live".data
          (subDashLit "Roxiestreams".data
            (collapseL (pyStripL (unescapeL t))))))))

/-- Clean the raw title: strip, unescape, and remove common site suffix
noise (src/rox.py lines 83-101). -/
def clean_event_title (raw_title : String) : String :=
  if raw_title = "" then "" else ⟨cleanL raw_title.data⟩

/-! ### External collaborators: parsed documents and the network

BeautifulSoup and requests are out-of-scope collaborators; a fetched page
is modelled by the observations the program makes of it: its anchors (with
href, stripped text, space-separated text, serialized markup), its
source/video tags (src, title, alt), its iframes (src, title, name), the
text of its first h1, the content of its og:title meta tag and the text of
its title tag.  Attributes that Python reads as None are modelled as the
empty string, which is truthiness-equivalent everywhere this program looks
at them.  A fetch either fails (None-soup and empty text in the source)
or returns a parsed document together with the raw page text. -/

structure Anchor where
  href : String
  text : String
  textSep : String
  markup : String
deriving DecidableEq

structure MediaTag where
  src : String
  title : String
  alt : String
deriving DecidableEq

structure IFrameTag where
  src : String
  title : String
  iname : String
deriving DecidableEq

structure Doc where
  anchors : List Anchor
  media : List MediaTag
  iframes : List IFrameTag
  h1 : String
  ogTitle : String
  titleTxt : String
deriving DecidableEq

/-- The network environment: maps a URL to a parsed document and raw text,
or none on any transport failure (the source's fetch returning (None, "")). -/
def Fetch : Type := String → Option (Doc × String)

/-! ### Configuration constants (src/rox.py lines 11-21) -/

def BASE_URL : String := "https://roxiestreams.live/"

def CATEGORIES : List String :=
  ["", "soccer", "mlb", "nba", "nfl", "nhl", "fighting", "motorsports", "motogp",
   "ufc", "ppv", "wwe-streams", "f1", "f1-streams", "nascar"]

def USER_AGENT : String :=
  "Mozilla/5.0 (Windows NT 10.0; Win64; x64; rv:144.0) Gecko/20100101 Firefox/144.0"

def REFERER : String := BASE_URL

/-! ### derive_title_from_page (TitleNormalizer.deriveFromPage) -/

/-- Pick best title from page: H1, then meta og:title, then title tag, then
the url slug of the fallback url (src/rox.py lines 103-125).  With no soup
the function returns the empty string at once, before the fallback url is
consulted, exactly as the source does. -/
def derive_title_from_page (soup : Option Doc) (fallback_url : Option String) : String :=
  match soup with
  | none => ""
  | some d =>
    if d.h1 ≠ "" then clean_event_title d.h1
    else if d.ogTitle ≠ "" then clean_event_title d.ogTitle
    else if d.titleTxt ≠ "" then clean_event_title d.titleTxt
    else
      match fallback_url with
      | some fb =>
        let path := trimRightL (fun c => c = '/') (urlPath fb.data)
        if path ≠ [] then
          let slug := (path.splitOn '/').getLastD []
          clean_event_title ⟨slug.map (fun c => if c = '-' then ' ' else c)⟩
        else ""
      | none => ""

/-! ### get_event_m3u8 (EventResolver.resolve) -/

/-- The absolute event URL for an event href (src/rox.py line 137). -/
def eventUrlOf (event_href : String) : String :=
  if strStarts event_href "http" then event_href else urljoin BASE_URL event_href

/-- State threaded through the scan loops: accumulated (title, url) results
in discovery order, and the per-call seen set. -/
def ScanState : Type := List (String × String) × List String

/-- Scan step for a top-level anchor (src/rox.py lines 158-170): extract
from the stripped href, else from the serialized markup; fix a
protocol-relative result; dedup; title from anchor text, base title or the
URL, cleaned. -/
def anchorStep (event_url base_title : String) (st : ScanState) (a : Anchor) : ScanState :=
  let href := pyStrip a.href
  match (extract_m3u8_from_text href (some event_url)).or
        (extract_m3u8_from_text a.markup (some event_url)) with
  | none => st
  | some cand0 =>
    let cand1 := pyStrip cand0
    let cand := if cand1.data.take 2 = ['/', '/'] then ⟨"https:".data ++ cand1.data⟩ else cand1
    if cand ∈ st.2 then st
    else
      let title := clean_event_title (pyOrS a.text (pyOrS base_title cand))
      (st.1 ++ [(title, cand)], cand :: st.2)

/-- Scan step for a source/video tag (src/rox.py lines 173-180). -/
def mediaStep (event_url base_title : String) (st : ScanState) (tag : MediaTag) : ScanState :=
  let src := pyStrip tag.src
  match extract_m3u8_from_text src (some event_url) with
  | none => st
  | some cand =>
    if cand ∈ st.2 then st
    else
      let title := clean_event_title (pyOrS tag.title (pyOrS tag.alt (pyOrS base_title cand)))
      (st.1 ++ [(title, cand)], cand :: st.2)

/-- Scan step for an anchor inside a fetched iframe document
(src/rox.py lines 197-203): extraction only from the raw href. -/
def iframeAnchorStep (iframe_url base_title : String) (st : ScanState) (a : Anchor) : ScanState :=
  match extract_m3u8_from_text a.href (some iframe_url) with
  | none => st
  | some cand =>
    if cand ∈ st.2 then st
    else
      let title := clean_event_title (pyOrS a.text (pyOrS base_title cand))
      (st.1 ++ [(title, cand)], cand :: st.2)

/-- Scan step for a source/video tag inside a fetched iframe document
(src/rox.py lines 204-210). -/
def iframeMediaStep (iframe_url base_title : String) (st : ScanState) (tag : MediaTag) : ScanState :=
  match extract_m3u8_from_text (pyStrip tag.src) (some iframe_url) with
  | none => st
  | some cand =>
    if cand ∈ st.2 then st
    else
      let title := clean_event_title (pyOrS tag.title (pyOrS tag.alt (pyOrS base_title cand)))
      (st.1 ++ [(title, cand)], cand :: st.2)

/-- Scan step for a top-level iframe (src/rox.py lines 183-210): resolve the
iframe URL against the event URL, fetch it, search its raw text for a
manifest, then scan its own anchors and media tags.  Iframes found inside
the fetched iframe document are never fetched. -/
def iframeStep (fetch : Fetch) (event_url base_title : String)
    (st : ScanState) (iframe : IFrameTag) : ScanState :=
  let src := pyStrip iframe.src
  let iframe_url := urljoin event_url src
  match fetch iframe_url with
  | none => st
  | some (soup_if, html_if) =>
    if html_if = "" then st
    else
      let st1 :=
        match extract_m3u8_from_text html_if (some iframe_url) with
        | none => st
        | some cand =>
          if cand ∈ st.2 then st
          else
            let title :=
              clean_event_title (pyOrS iframe.title (pyOrS iframe.iname (pyOrS base_title cand)))
            (st.1 ++ [(title, cand)], cand :: st.2)
      let st2 := soup_if.anchors.foldl (iframeAnchorStep iframe_url base_title) st1
      soup_if.media.foldl (iframeMediaStep iframe_url base_title) st2

/-- Final whole-page text search (src/rox.py lines 213-216); note the title
is not cleaned at this step in the source. -/
def pageTextStep (event_url base_title : String) (html_text : String) (st : ScanState) : ScanState :=
  match extract_m3u8_from_text html_text (some event_url) with
  | none => st
  | some cand =>
    if cand ∈ st.2 then st
    else (st.1 ++ [(pyOrS base_title cand, cand)], cand :: st.2)

/-- Final normalization pass (src/rox.py lines 218-238): strip, fix
protocol-relative URLs, resolve scheme-less URLs against the event URL,
dedup by final URL, and substitute a page-derived title or the URL for an
empty cleaned title. -/
def finalizeResults (soup : Doc) (event_url : String)
    (results : List (String × String)) : List (String × String) :=
  (results.foldl
    (fun (acc : List (String × String) × List String) tu =>
      let t := tu.1
      let u0 := tu.2
      if u0 = "" then acc
      else
        let u1 := pyStrip u0
        let u2 := if u1.data.take 2 = ['/', '/'] then (⟨"https:".data ++ u1.data⟩ : String) else u1
        let u := if urlScheme u2.data = [] then urljoin event_url u2 else u2
        if u ∈ acc.2 then acc
        else
          let title_clean := clean_event_title t
          let title_clean :=
            if title_clean = "" then
              pyOrS (derive_title_from_page (some soup) (some event_url)) u
            else title_clean
          (acc.1 ++ [(title_clean, u)], u :: acc.2))
    ([], [])).1

/-- Inspect an event page (or direct m3u8 link) and return the list of
(event_title, clean_m3u8_url) pairs (src/rox.py lines 127-238). -/
def get_event_m3u8 (fetch : Fetch) (event_href : String) (anchor_text : String) :
    List (String × String) :=
  if event_href = "" then []
  else
    let event_url := eventUrlOf event_href
    match extract_m3u8_from_text event_href (some event_url) with
    | some direct =>
      let title :=
        clean_event_title
          (pyOrS anchor_text (pyOrS (derive_title_from_page none (some event_url)) direct))
      [(title, direct)]
    | none =>
      match fetch event_url with
      | none => []
      | some (soup, html_text) =>
        let base_title := if anchor_text ≠ "" then clean_event_title anchor_text else ""
        let base_title :=
          if base_title = "" then derive_title_from_page (some soup) (some event_url)
          else base_title
        let st : ScanState := ([], [])
        let st := soup.anchors.foldl (anchorStep event_url base_title) st
        let st := soup.media.foldl (mediaStep event_url base_title) st
        let st := soup.iframes.foldl (iframeStep fetch event_url base_title) st
        let st := pageTextStep event_url base_title html_text st
        finalizeResults soup event_url st.1

/-! ### get_category_event_candidates (CategoryCrawler.listCandidates) -/

/-- Heuristic keywords for event links (src/rox.py line 267). -/
def candidateKeywords : List String := ["stream", "streams", "match", "game", "event"]

/-- re.search for the numeric event-slug pattern: a dash followed by one or
more digits at the end of the string. -/
def endsDashDigits (s : List Char) : Bool :=
  let r := s.reverse
  let digits := r.takeWhile Char.isDigit
  decide (digits ≠ []) && decide ((r.drop digits.length).head? = some '-')

/-- Anchor filter of the crawler: candidate if the href contains ".m3u8",
or its lower-cased form contains one of the keywords, or it ends in a dash
followed by digits. -/
def looksLikeCandidate (href : String) : Bool :=
  strIn ".m3u8" href ||
  (candidateKeywords.any (fun k => strIn k (lowerStr href))) ||
  endsDashDigits (lowerStr href).data

/-- Crawler step per anchor (src/rox.py lines 258-270): skip empty and
mailto/javascript hrefs, resolve to an absolute URL, apply the heuristics,
dedup by resolved URL keeping the first anchor text. -/
def categoryAnchorStep (cat_url : String)
    (st : List (String × String) × List String) (a : Anchor) :
    List (String × String) × List String :=
  let href := pyStrip a.href
  let text := pyOrS a.textSep ""
  if href = "" ∨ strStarts href "mailto:" = true ∨ strStarts href "javascript:" = true then st
  else
    let full := if strStarts href "http" then href else urljoin cat_url href
    if looksLikeCandidate href then
      if full ∈ st.2 then st
      else (st.1 ++ [(pyStrip text, full)], full :: st.2)
    else st

/-- Fetch a category page and return the list of (anchor_text, href)
candidates (src/rox.py lines 240-279).  When no anchor qualified, the raw
page text is scanned for every manifest-pattern match. -/
def get_category_event_candidates (fetch : Fetch) (category_path : String) :
    List (String × String) :=
  let cat_url := if category_path = "" then BASE_URL else urljoin BASE_URL category_path
  match fetch cat_url with
  | none => []
  | some (soup, html_text) =>
    let st := soup.anchors.foldl (categoryAnchorStep cat_url) ([], [])
    if st.1 = [] then
      ((m3u8FindAll html_text.data).foldl
        (fun (acc : List (String × String) × List String) m =>
          if m ≠ [] ∧ ¬ (⟨m⟩ : String) ∈ acc.2 then
            (acc.1 ++ [("", (⟨m⟩ : String))], (⟨m⟩ : String) :: acc.2)
          else acc)
        st).1
    else st.1

/-! ### get_tv_data_for_category (category metadata lookup) -/

/-- Python str.replace(old, new) with an empty replacement: remove all
non-overlapping occurrences left to right (fuel-based). -/
def removeAllAux (pat : List Char) : Nat → List Char → List Char
  | 0, t => t
  | _ + 1, [] => []
  | fuel + 1, c :: rest =>
    if startsWithEq pat (c :: rest) ∧ pat ≠ [] then
      removeAllAux pat fuel ((c :: rest).drop pat.length)
    else c :: removeAllAux pat fuel rest

/-- Remove all occurrences of a pattern from a string. -/
def removeAll (pat s : String) : String := ⟨removeAllAux pat.data s.data.length s.data⟩

/-- Logo / metadata dictionary (src/rox.py lines 24-39), in insertion
order: category key to (tvg_id, logo, group_name). -/
def TV_INFO : List (String × String × String × String) :=
  [("soccer", "Soccer.Dummy.us", "https://i.postimg.cc/HsWHFvV0/Soccer.png", "Soccer"),
   ("mlb", "MLB.Baseball.Dummy.us", "https://i.postimg.cc/FsFmwC7K/Baseball3.png", "MLB"),
   ("nba", "NBA.Basketball.Dummy.us", "https://i.postimg.cc/jdqKB3LW/Basketball-2.png", "NBA"),
   ("nfl", "Football.Dummy.us", "https://i.postimg.cc/tRNpSGCq/Maxx.png", "NFL"),
   ("nhl", "NHL.Hockey.Dummy.us",
     "https://i.postimg.cc/mgMRQ7FR/nhl-logo-png-seeklogo-534236.png", "NHL"),
   ("fighting", "PPV.EVENTS.Dummy.us",
     "https://i.postimg.cc/8c4GjMnH/Combat-Sports.png", "Combat Sports"),
   ("motorsports", "Racing.Dummy.us", "https://i.postimg.cc/yY6B2pkv/F1.png", "Motorsports"),
   ("ufc", "UFC.Fight.Pass.Dummy.us",
     "https://i.postimg.cc/59Sb7W9D/Combat-Sports2.png", "UFC"),
   ("ppv", "PPV.EVENTS.Dummy.us", "https://i.postimg.cc/mkj4tC62/PPV.png", "PPV"),
   ("wwe-streams", "PPV.EVENTS.Dummy.us", "https://i.postimg.cc/wTxHn47J/WWE2.png", "WWE"),
   ("f1", "Racing.Dummy.us", "https://i.postimg.cc/yY6B2pkv/F1.png", "Formula 1"),
   ("f1-streams", "Racing.Dummy.us", "https://i.postimg.cc/yY6B2pkv/F1.png", "Formula 1"),
   ("nascar", "Racing.Dummy.us",
     "https://i.postimg.cc/m2dR43HV/Motorsports2.png", "NASCAR Cup Series"),
   ("misc", "Sports.Dummy.us", "https://i.postimg.cc/qMm0rc3L/247.png", "Random Events")]

/-- Metadata lookup (src/rox.py lines 281-292): normalize the key, try the
exact mapping, then the first table key contained in the key, else misc. -/
def get_tv_data_for_category (cat_path : String) : String × String × String :=
  let key := pyStrip (lowerStr (pyOrS cat_path "misc"))
  let key := removeAll "streams" (removeAll "-streams" key)
  match TV_INFO.find? (fun e => e.1 = key) with
  | some e => e.2
  | none =>
    match TV_INFO.find? (fun e => strIn e.1 key) with
    | some e => e.2
    | none => ("Sports.Dummy.us", "https://i.postimg.cc/qMm0rc3L/247.png", "Random Events")

/-! ### write_playlists (PlaylistWriter)

The datetime and file system are external; the two playlist files are
modelled as pure functions of the timestamp string and the stream records. -/

/-- Python urllib.parse.quote with safe set empty, for ASCII strings:
unreserved characters stay, everything else is percent-encoded. -/
def hexDigit (n : Nat) : Char :=
  if n < 10 then Char.ofNat (48 + n) else Char.ofNat (55 + n)

def isQuoteSafe (c : Char) : Bool :=
  c.isAlpha || c.isDigit || c = '_' || c = '.' || c = '-' || c = '~'

def pyQuote (s : String) : String :=
  ⟨(s.data.map (fun c =>
      if isQuoteSafe c then [c]
      else ['%', hexDigit (c.toNat / 16), hexDigit (c.toNat % 16)])).flatten⟩

/-- A final stream record: the category key (cat or "misc"), the display
name and the manifest URL, matching the tuples appended by main. -/
structure StreamRecord where
  category : String
  displayName : String
  manifestUrl : String
deriving DecidableEq, Repr

/-- The common playlist header (src/rox.py line 296) as a function of the
formatted timestamp. -/
def playlist_header (ts : String) : String :=
  "#EXTM3U x-tvg-url=\"https://epgshare01.online/epgshare01/epg_ripper_ALL_SOURCES1.xml.gz\"\n# Last Updated: "
  ++ ts ++ "\n\n"

/-- One EXTINF info line for a record (src/rox.py lines 303 and 312). -/
def extinfLine (r : StreamRecord) : String :=
  let meta := get_tv_data_for_category r.category
  "#EXTINF:-1 tvg-logo=\"" ++ meta.2.1 ++ "\" tvg-id=\"" ++ meta.1 ++
  "\" group-title=\"Roxiestreams - " ++ meta.2.2 ++ "\"," ++ r.displayName ++ "\n"

/-- The VLC playlist file contents (src/rox.py lines 298-304). -/
def vlc_playlist (ts : String) (streams : List StreamRecord) : String :=
  playlist_header ts ++
  String.join (streams.map (fun r => extinfLine r ++ r.manifestUrl ++ "\n\n"))

/-- The TiviMate playlist file contents (src/rox.py lines 306-313): each
URL line carries pipe-delimited referer and url-encoded user-agent. -/
def tivimate_playlist (ts : String) (streams : List StreamRecord) : String :=
  playlist_header ts ++
  String.join (streams.map (fun r =>
    extinfLine r ++ r.manifestUrl ++ "|referer=" ++ REFERER ++ "|user-agent=" ++
    pyQuote USER_AGENT ++ "\n\n"))

/-! ### main (StreamAggregator orchestration, src/rox.py lines 315-353) -/

/-- Python str.title(): the first letter of each run of letters is
upper-cased, the following letters are lower-cased. -/
def pyTitleAux : List Char → Bool → List Char
  | [], _ => []
  | c :: r, prevAlpha =>
    (if c.isAlpha then (if prevAlpha then c.toLower else c.toUpper) else c) ::
    pyTitleAux r c.isAlpha

def pyTitle (s : String) : String := ⟨pyTitleAux s.data false⟩

/-- Orchestrator state: accumulated stream records and the process-wide
seen-URL set. -/
def MainState : Type := List StreamRecord × List String

/-- The display name for a category and final title (src/rox.py 334, 352). -/
def displayNameOf (cat title : String) : String :=
  pyTitle (pyOrS cat "Roxiestreams") ++ " - " ++ title

/-- Record-building step for one resolved (ev_title, ev_url) pair of a
non-direct candidate (src/rox.py lines 340-353). -/
def eventRecordStep (cat anchor_text href : String) (st : MainState)
    (p : String × String) : MainState :=
  let ev_title := p.1
  let ev_url := p.2
  if ev_url = "" ∨ ¬ strIn ".m3u8" ev_url then st
  else
    let cl := pyOrOptS (extract_m3u8_from_text ev_url (some href)) ev_url
    if cl = "" then st
    else if cl ∈ st.2 then st
    else
      let final_title :=
        pyOrS (pyOrS (pyOrS ev_title anchor_text)
          (derive_title_from_page none (some href))) cl
      let final_title := clean_event_title final_title
      (st.1 ++ [⟨pyOrS cat "misc", displayNameOf cat final_title, cl⟩], cl :: st.2)

/-- Per-candidate step of main (src/rox.py lines 327-353): a direct .m3u8
href yields a record immediately; otherwise the event page is resolved and
each returned stream is considered. -/
def candidateStep (fetch : Fetch) (cat : String) (st : MainState)
    (cand : String × String) : MainState :=
  let anchor_text := cand.1
  let href := cand.2
  if strIn ".m3u8" href then
    let cl := pyOrOptS (extract_m3u8_from_text href (some href)) href
    if cl ≠ "" ∧ ¬ cl ∈ st.2 then
      let title :=
        pyOrS (pyOrS (clean_event_title anchor_text)
          (derive_title_from_page none (some href))) cl
      (st.1 ++ [⟨pyOrS cat "misc", displayNameOf cat title, cl⟩], cl :: st.2)
    else st
  else
    (get_event_m3u8 fetch href anchor_text).foldl (eventRecordStep cat anchor_text href) st

/-- The full accumulated stream-record list of one run of main, as a
function of the network environment. -/
def main_streams (fetch : Fetch) : List StreamRecord :=
  (CATEGORIES.foldl
    (fun st cat =>
      (get_category_event_candidates fetch cat).foldl (candidateStep fetch cat) st)
    ([], [])).1

/-! ### Auxiliary predicates and concrete environments used by theorems -/

/-- The structural shape of every string returned by the manifest-URL
matcher: an http(s) scheme prefix, a core ending in ".m3u8"
(case-insensitively) and an optional query of url characters. -/
def m3u8UrlShape (u : List Char) : Prop :=
  (startsWithCI "http://".data u = true ∨ startsWithCI "https://".data u = true) ∧
  ∃ core q, u = core ++ q ∧ endsWithCI ".m3u8".data core = true ∧
    (q = [] ∨ ∃ qs, q = '?' :: qs ∧ qs.all isUrlChar = true)

/-- No suffix of the text starts with "http" (case-insensitively); such a
text cannot contain any match of M3U8_RE. -/
def noHttpAnywhere : List Char → Bool
  | [] => true
  | c :: t => !startsWithCI "http".data (c :: t) && noHttpAnywhere t

/-- One step of first-occurrence deduplication keyed by manifest URL. -/
def dedupStep (st : MainState) (r : StreamRecord) : MainState :=
  if r.manifestUrl ∈ st.2 then st else (st.1 ++ [r], r.manifestUrl :: st.2)

/-- Keep the first record for each manifest URL, in order. -/
def firstOccByUrl (rs : List StreamRecord) : List StreamRecord :=
  (rs.foldl dedupStep ([], [])).1

/-- The record proposal a direct-manifest candidate contributes
(src/rox.py lines 329-336, without the process-wide dedup gate). -/
def directProposals (cat anchor_text href : String) : List StreamRecord :=
  let cl := pyOrOptS (extract_m3u8_from_text href (some href)) href
  if cl ≠ "" then
    [⟨pyOrS cat "misc",
      displayNameOf cat
        (pyOrS (pyOrS (clean_event_title anchor_text)
          (derive_title_from_page none (some href))) cl), cl⟩]
  else []

/-- The record proposal one resolved stream contributes
(src/rox.py lines 340-353, without the process-wide dedup gate). -/
def eventProposal (cat anchor_text href : String) (p : String × String) :
    Option StreamRecord :=
  if p.2 = "" ∨ ¬ strIn ".m3u8" p.2 then none
  else
    let cl := pyOrOptS (extract_m3u8_from_text p.2 (some href)) p.2
    if cl = "" then none
    else
      some ⟨pyOrS cat "misc",
        displayNameOf cat
          (clean_event_title
            (pyOrS (pyOrS (pyOrS p.1 anchor_text)
              (derive_title_from_page none (some href))) cl)), cl⟩

/-- All record proposals of one candidate, in order. -/
def candProposals (fetch : Fetch) (cat : String) (cand : String × String) :
    List StreamRecord :=
  if strIn ".m3u8" cand.2 then directProposals cat cand.1 cand.2
  else (get_event_m3u8 fetch cand.2 cand.1).filterMap (eventProposal cat cand.1 cand.2)

/-- All record proposals of one whole run, in order: every category, every
candidate, before the process-wide deduplication. -/
def allProposals (fetch : Fetch) : List StreamRecord :=
  (CATEGORIES.map (fun cat =>
    ((get_category_event_candidates fetch cat).map (candProposals fetch cat)).flatten)).flatten

/-- Does the list contain two adjacent spaces (used to characterize
whitespace-collapsed strings)? -/
def hasDDb : List Char → Bool
  | a :: b :: r => (a = ' ' && b = ' ') || hasDDb (b :: r)
  | _ => false

/-- A parsed document with no tags and no titles. -/
def emptyDoc : Doc := ⟨[], [], [], "", "", ""⟩

/-- Scenario for C7: the root category page holds a single anchor with
href "/live/123-match.m3u8" and empty text; no other page resolves. -/
def docScenario7 : Doc := ⟨[⟨"/live/123-match.m3u8", "", "", "<a></a>"⟩], [], [], "", "", ""⟩

def fetchScenario7 : Fetch := fun u =>
  if u = BASE_URL then some (docScenario7, "<html></html>") else none

/-- Scenario for C4: the root category page holds a single anchor whose
href "httpx.m3u8" starts with "http" (so it is taken verbatim) but does
not match the manifest pattern. -/
def docScenario4 : Doc := ⟨[⟨"httpx.m3u8", "", "", "<a></a>"⟩], [], [], "", "", ""⟩

def fetchScenario4 : Fetch := fun u =>
  if u = BASE_URL then some (docScenario4, "page") else none

/-- Scenario for C4 witness: a direct absolute manifest link. -/
def docScenario4w : Doc := ⟨[⟨"http://cdn.host/live/a.m3u8", "Game", "Game", "<a></a>"⟩],
  [], [], "", "", ""⟩

def fetchScenario4w : Fetch := fun u =>
  if u = BASE_URL then some (docScenario4w, "page") else none

/-- Scenario for C5's witness: an event page with one iframe; behind the
iframe, the two environments differ only in what a nested iframe (an
iframe found inside the iframe's own document) would serve. -/
def docEventC5 : Doc := ⟨[], [], [⟨"fr", "", ""⟩], "Big Match", "", ""⟩

def docIframeC5 : Doc := ⟨[], [], [⟨"deep", "", ""⟩], "", "", ""⟩

def fetchC5a : Fetch := fun u =>
  if u = "https://roxiestreams.live/ev" then some (docEventC5, "event page")
  else if u = "https://roxiestreams.live/fr" then some (docIframeC5, "frame page")
  else if u = "https://roxiestreams.live/deep" then
    some (emptyDoc, "var m = \"http://hidden.host/deep.m3u8\";")
  else none

def fetchC5b : Fetch := fun u =>
  if u = "https://roxiestreams.live/ev" then some (docEventC5, "event page")
  else if u = "https://roxiestreams.live/fr" then some (docIframeC5, "frame page")
  else none

/-! ### Character-level lemmas -/

theorem char_toLower_shape (c : Char) :
    c.toLower = c ∨ ∃ n, 65 ≤ n ∧ n ≤ 90 ∧ c = Char.ofNat n := by
  unfold Char.toLower
  simp only []
  by_cases h : c.toNat ≥ 65 ∧ c.toNat ≤ 90
  · rw [if_pos h]
    exact Or.inr ⟨c.toNat, h.1, h.2, (Char.ofNat_toNat c).symm⟩
  · rw [if_neg h]
    exact Or.inl rfl

theorem char_eq_colon_of_toLower {c : Char} (h : c.toLower = ':') : c = ':' := by
  rcases char_toLower_shape c with hc | ⟨n, h1, h2, hc⟩
  · rw [hc] at h; exact h
  · exfalso
    subst hc
    interval_cases n <;> revert h <;> decide

theorem char_eq_slash_of_toLower {c : Char} (h : c.toLower = '/') : c = '/' := by
  rcases char_toLower_shape c with hc | ⟨n, h1, h2, hc⟩
  · rw [hc] at h; exact h
  · exfalso
    subst hc
    interval_cases n <;> revert h <;> decide

theorem char_isAlpha_of_toLower {c x : Char} (h : c.toLower = x) (hx : x.isLower = true) :
    c.isAlpha = true := by
  rcases char_toLower_shape c with hc | ⟨n, h1, h2, hc⟩
  · rw [hc] at h
    subst h
    simp [Char.isAlpha, hx]
  · subst hc
    interval_cases n <;> decide

theorem char_ne_colon_of_isAlpha {c : Char} (h : c.isAlpha = true) : c ≠ ':' := by
  intro hc
  subst hc
  exact absurd h (by decide)

/-! ### Prefix-test lemmas -/

theorem startsWithCI_iff (p : List Char) : ∀ s : List Char,
    startsWithCI p s = true ↔
      p.length ≤ s.length ∧ (s.take p.length).map Char.toLower = p.map Char.toLower := by
  induction p with
  | nil => intro s; simp [startsWithCI]
  | cons a ps ih =>
    intro s
    cases s with
    | nil => simp [startsWithCI]
    | cons c cs =>
      simp only [startsWithCI, Bool.and_eq_true, List.length_cons, List.take_succ_cons,
        List.map_cons, decide_eq_true_eq, ih cs]
      constructor
      · rintro ⟨h1, h2, h3⟩
        exact ⟨Nat.succ_le_succ h2, by rw [h1, h3]⟩
      · rintro ⟨h1, h2⟩
        injection h2 with h2a h2b
        exact ⟨h2a.symm, Nat.le_of_succ_le_succ h1, h2b⟩

theorem startsWithCI_append_exact {p m : List Char} (r : List Char)
    (hm : m.map Char.toLower = p.map Char.toLower) : startsWithCI p (m ++ r) = true := by
  have hlen : m.length = p.length := by
    have h := congrArg List.length hm
    simpa using h
  rw [startsWithCI_iff]
  refine ⟨by simp only [List.length_append]; omega, ?_⟩
  rw [List.take_append_eq_append_take, ← hlen, List.take_length, Nat.sub_self, List.take_zero,
    List.append_nil, hm]

theorem endsWithCI_append {p m : List Char} (x : List Char)
    (hm : m.map Char.toLower = p.map Char.toLower) : endsWithCI p (x ++ m) = true := by
  unfold endsWithCI
  rw [List.reverse_append]
  refine startsWithCI_append_exact x.reverse ?_
  have h := congrArg List.reverse hm
  simpa [List.map_reverse] using h

theorem containsSubCI_append {p m : List Char} (x y : List Char)
    (hm : m.map Char.toLower = p.map Char.toLower) :
    containsSubCI p (x ++ (m ++ y)) = true := by
  induction x with
  | nil =>
    simp only [List.nil_append]
    cases hme : m ++ y with
    | nil =>
      have hmnil : m = [] := by cases m <;> simp_all
      subst hmnil
      have hpnil : p = [] := by cases p <;> simp_all
      subst hpnil
      simp [containsSubCI]
    | cons c cs =>
      simp only [containsSubCI, Bool.or_eq_true]
      exact Or.inl (hme ▸ startsWithCI_append_exact y hm)
  | cons a xs ih =>
    simp only [List.cons_append, containsSubCI, Bool.or_eq_true]
    exact Or.inr ih

theorem all_takeWhileL (p : Char → Bool) : ∀ l : List Char, (l.takeWhile p).all p = true := by
  intro l
  induction l with
  | nil => simp
  | cons a as iha =>
    by_cases ha : p a = true
    · simp [List.takeWhile_cons, ha, iha]
    · simp [List.takeWhile_cons, ha]

theorem querySplit_fst (s : List Char) :
    (querySplit s).1 = [] ∨
      ∃ qs, (querySplit s).1 = '?' :: qs ∧ qs.all isUrlChar = true := by
  unfold querySplit
  split
  · next rest => exact Or.inr ⟨rest.takeWhile isUrlChar, rfl, all_takeWhileL _ _⟩
  · exact Or.inl rfl

/-! ### Structure of M3U8_RE matches -/

theorem bodyScan_shape : ∀ s core r, bodyScan s = some (core, r) →
    ∃ b m, core = b ++ m ∧ b ≠ [] ∧ m.map Char.toLower = ".m3u8".data.map Char.toLower := by
  intro s
  induction s with
  | nil => intro core r h; simp [bodyScan] at h
  | cons c rest ih =>
    intro core r h
    simp only [bodyScan] at h
    by_cases hc : isUrlChar c = true
    · rw [if_pos hc] at h
      by_cases hm : startsWithCI ".m3u8".data rest = true
      · rw [if_pos hm] at h
        injection h with h
        injection h with h1 h2
        refine ⟨[c], rest.take 5, by simp [h1.symm], by simp, ?_⟩
        rw [startsWithCI_iff] at hm
        exact hm.2
      · rw [if_neg hm] at h
        cases hbs : bodyScan rest with
        | none => rw [hbs] at h; simp at h
        | some p =>
          rw [hbs] at h
          obtain ⟨core0, r0⟩ := p
          simp only [] at h
          injection h with h
          injection h with h1 h2
          obtain ⟨b, m, hbm, hb, hmm⟩ := ih core0 r0 hbs
          exact ⟨c :: b, m, by rw [← h1, hbm]; simp, by simp, hmm⟩
    · rw [if_neg hc] at h
      simp at h

theorem schemeSplit_shape {s sch rest : List Char} (hs : schemeSplit s = some (sch, rest)) :
    (sch.map Char.toLower = "http://".data.map Char.toLower ∧ sch.length = 7) ∨
      (sch.map Char.toLower = "https://".data.map Char.toLower ∧ sch.length = 8) := by
  unfold schemeSplit at hs
  by_cases h8 : startsWithCI "https://".data s = true
  · rw [if_pos h8] at hs
    injection hs with hs
    injection hs with hs1 hs2
    rw [startsWithCI_iff] at h8
    have e8 : ("https://".data).length = 8 := rfl
    rw [e8] at h8
    refine Or.inr ⟨by rw [← hs1]; exact h8.2, ?_⟩
    rw [← hs1, List.length_take]
    omega
  · rw [if_neg h8] at hs
    by_cases h7 : startsWithCI "http://".data s = true
    · rw [if_pos h7] at hs
      injection hs with hs
      injection hs with hs1 hs2
      rw [startsWithCI_iff] at h7
      have e7 : ("http://".data).length = 7 := rfl
      rw [e7] at h7
      refine Or.inl ⟨by rw [← hs1]; exact h7.2, ?_⟩
      rw [← hs1, List.length_take]
      omega
    · rw [if_neg h7] at hs
      simp at hs

theorem matchAtFull_shape : ∀ s u r, matchAtFull s = some (u, r) → m3u8UrlShape u := by
  intro s u r h
  unfold matchAtFull at h
  cases hs : schemeSplit s with
  | none => rw [hs] at h; simp at h
  | some p =>
    rw [hs] at h
    obtain ⟨sch, rest⟩ := p
    simp only [] at h
    cases hb : bodyScan rest with
    | none => rw [hb] at h; simp at h
    | some q =>
      rw [hb] at h
      obtain ⟨core0, rest2⟩ := q
      simp only [] at h
      injection h with h
      injection h with h1 h2
      obtain ⟨b, m, hbm, hbne, hmm⟩ := bodyScan_shape rest core0 rest2 hb
      constructor
      · rcases schemeSplit_shape hs with ⟨hmap, _⟩ | ⟨hmap, _⟩
        · refine Or.inl ?_
          rw [← h1, List.append_assoc]
          exact startsWithCI_append_exact _ hmap
        · refine Or.inr ?_
          rw [← h1, List.append_assoc]
          exact startsWithCI_append_exact _ hmap
      · refine ⟨sch ++ core0, (querySplit rest2).1, by rw [← h1, List.append_assoc], ?_, ?_⟩
        · rw [hbm, ← List.append_assoc]
          exact endsWithCI_append _ hmm
        · exact querySplit_fst rest2

theorem m3u8Search_first : ∀ t u, m3u8SearchList t = some u →
    ∃ i, matchAt (t.drop i) = some u ∧ ∀ j, j < i → matchAt (t.drop j) = none := by
  intro t
  induction t with
  | nil => intro u h; simp [m3u8SearchList] at h
  | cons c rest ih =>
    intro u h
    simp only [m3u8SearchList] at h
    cases hm : matchAt (c :: rest) with
    | some v =>
      rw [hm] at h
      injection h with h
      exact ⟨0, by simpa [hm] using h, by intro j hj; omega⟩
    | none =>
      rw [hm] at h
      obtain ⟨i, hi, hlt⟩ := ih u h
      refine ⟨i + 1, by simpa using hi, ?_⟩
      intro j hj
      cases j with
      | zero => simpa using hm
      | succ j0 =>
        have := hlt j0 (by omega)
        simpa using this

theorem search_shape {t u : List Char} (h : m3u8SearchList t = some u) : m3u8UrlShape u := by
  obtain ⟨i, hi, _⟩ := m3u8Search_first t u h
  unfold matchAt at hi
  cases hf : matchAtFull (t.drop i) with
  | none => rw [hf] at hi; simp at hi
  | some p =>
    rw [hf] at hi
    obtain ⟨v, r⟩ := p
    simp only [Option.map] at hi
    injection hi with hi
    exact hi ▸ matchAtFull_shape _ v r hf

theorem shape_head_lower_h {u : List Char} (hu : m3u8UrlShape u) :
    ∃ c cs, u = c :: cs ∧ c.toLower = 'h' := by
  obtain ⟨hstart, _⟩ := hu
  cases u with
  | nil => rcases hstart with h | h <;> simp [startsWithCI] at h
  | cons c cs =>
    refine ⟨c, cs, rfl, ?_⟩
    rcases hstart with h | h <;>
      · simp only [startsWithCI, Bool.and_eq_true, decide_eq_true_eq] at h
        have h1 := h.1
        have : ('h').toLower = 'h' := by decide
        rw [this] at h1
        exact h1.symm

theorem shape_not_protocol_relative {u : List Char} (hu : m3u8UrlShape u) :
    u.take 2 ≠ ['/', '/'] := by
  obtain ⟨c, cs, hcons, hc⟩ := shape_head_lower_h hu
  subst hcons
  intro hcontra
  cases cs with
  | nil => simp at hcontra
  | cons b bs =>
    simp only [List.take_succ_cons, List.take_zero] at hcontra
    injection hcontra with h1 _
    subst h1
    exact absurd hc (by decide)

theorem urlScheme_ne_nil_of_shape {u : List Char} (hu : m3u8UrlShape u) :
    urlScheme u ≠ [] := by
  obtain ⟨hstart, _⟩ := hu
  have key : ∃ c0 c1 c2 c3 rest, u = c0 :: c1 :: c2 :: c3 :: rest ∧
      c0.isAlpha = true ∧ c1.isAlpha = true ∧ c2.isAlpha = true ∧ c3.isAlpha = true ∧
      (rest.head? = some ':' ∨
        ∃ c4 rest2, rest = c4 :: rest2 ∧ c4.isAlpha = true ∧ rest2.head? = some ':') := by
    rcases hstart with h | h
    · cases u with
      | nil => simp [startsWithCI] at h
      | cons c0 u0 =>
        cases u0 with
        | nil => simp [startsWithCI] at h
        | cons c1 u1 =>
          cases u1 with
          | nil => simp [startsWithCI] at h
          | cons c2 u2 =>
            cases u2 with
            | nil => simp [startsWithCI] at h
            | cons c3 u3 =>
              cases u3 with
              | nil => simp [startsWithCI] at h
              | cons c4 u4 =>
                simp only [startsWithCI, Bool.and_eq_true, decide_eq_true_eq] at h
                obtain ⟨e0, e1, e2, e3, e4, _⟩ := h
                refine ⟨c0, c1, c2, c3, c4 :: u4, rfl,
                  char_isAlpha_of_toLower e0.symm (by decide),
                  char_isAlpha_of_toLower e1.symm (by decide),
                  char_isAlpha_of_toLower e2.symm (by decide),
                  char_isAlpha_of_toLower e3.symm (by decide), ?_⟩
                refine Or.inl ?_
                have : c4 = ':' := char_eq_colon_of_toLower (by
                  have : (':').toLower = ':' := by decide
                  rw [← e4]; exact this)
                simp [this]
    · cases u with
      | nil => simp [startsWithCI] at h
      | cons c0 u0 =>
        cases u0 with
        | nil => simp [startsWithCI] at h
        | cons c1 u1 =>
          cases u1 with
          | nil => simp [startsWithCI] at h
          | cons c2 u2 =>
            cases u2 with
            | nil => simp [startsWithCI] at h
            | cons c3 u3 =>
              cases u3 with
              | nil => simp [startsWithCI] at h
              | cons c4 u4 =>
                cases u4 with
                | nil => simp [startsWithCI] at h
                | cons c5 u5 =>
                  simp only [startsWithCI, Bool.and_eq_true, decide_eq_true_eq] at h
                  obtain ⟨e0, e1, e2, e3, e4, e5, _⟩ := h
                  refine ⟨c0, c1, c2, c3, c4 :: c5 :: u5, rfl,
                    char_isAlpha_of_toLower e0.symm (by decide),
                    char_isAlpha_of_toLower e1.symm (by decide),
                    char_isAlpha_of_toLower e2.symm (by decide),
                    char_isAlpha_of_toLower e3.symm (by decide), ?_⟩
                  refine Or.inr ⟨c4, c5 :: u5, rfl,
                    char_isAlpha_of_toLower e4.symm (by decide), ?_⟩
                  have : c5 = ':' := char_eq_colon_of_toLower (by
                    have h5 : (':').toLower = ':' := by decide
                    rw [← e5]; exact h5)
                  simp [this]
  obtain ⟨c0, c1, c2, c3, rest, hcons, a0, a1, a2, a3, hrest⟩ := key
  subst hcons
  unfold urlScheme urlsplitL splitScheme
  have n0 := char_ne_colon_of_isAlpha a0
  have n1 := char_ne_colon_of_isAlpha a1
  have n2 := char_ne_colon_of_isAlpha a2
  have n3 := char_ne_colon_of_isAlpha a3
  rcases hrest with h4 | ⟨c4, rest2, hr, a4, h5⟩
  · cases rest with
    | nil => simp at h4
    | cons r0 rs =>
      have hr0 : r0 = ':' := by simpa using h4
      subst hr0
      have hpre : (c0 :: c1 :: c2 :: c3 :: ':' :: rs).takeWhile (fun c => decide (c ≠ ':')) =
          [c0, c1, c2, c3] := by
        simp [List.takeWhile_cons, n0, n1, n2, n3]
      rw [hpre]
      rw [if_pos]
      · simp
      · refine ⟨by simp, by simp, by simp [a0], ?_⟩
        simp [isSchemeChar, a0, a1, a2, a3]
  · subst hr
    cases rest2 with
    | nil => simp at h5
    | cons r0 rs =>
      have hr0 : r0 = ':' := by simpa using h5
      subst hr0
      have n4 := char_ne_colon_of_isAlpha a4
      have hpre : (c0 :: c1 :: c2 :: c3 :: c4 :: ':' :: rs).takeWhile
          (fun c => decide (c ≠ ':')) = [c0, c1, c2, c3, c4] := by
        simp [List.takeWhile_cons, n0, n1, n2, n3, n4]
      rw [hpre]
      rw [if_pos]
      · simp
      · refine ⟨by simp, by simp, by simp [a0], ?_⟩
        simp [isSchemeChar, a0, a1, a2, a3, a4]

/-- The branches after the regex search in extract_m3u8_from_text never
fire: the returned string is exactly the leftmost regex match. -/
theorem extract_characterization {text : String} {base : Option String} {u : String}
    (h : extract_m3u8_from_text text base = some u) :
    m3u8SearchList text.data = some u.data ∧ m3u8UrlShape u.data := by
  unfold extract_m3u8_from_text at h
  by_cases ht : text = ""
  · rw [if_pos ht] at h; simp at h
  · rw [if_neg ht] at h
    cases hs : m3u8SearchList text.data with
    | none => rw [hs] at h; simp at h
    | some v =>
      rw [hs] at h
      dsimp only [] at h
      have hshape := search_shape hs
      have hslash := shape_not_protocol_relative hshape
      rw [if_neg hslash] at h
      have hscheme := urlScheme_ne_nil_of_shape hshape
      have hv : some (⟨v⟩ : String) = some u := by
        cases base with
        | none => exact h
        | some b =>
          dsimp only [] at h
          by_cases hb : b ≠ "" ∧ urlScheme v = []
          · exact absurd hb.2 hscheme
          · rw [if_neg hb] at h; exact h
      have hdata : u.data = v := by
        injection hv with hv2
        rw [← hv2]
      refine ⟨?_, hdata ▸ hshape⟩
      rw [hdata]

theorem startsWithCI_of_append {p q : List Char} : ∀ {s : List Char},
    startsWithCI (p ++ q) s = true → startsWithCI p s = true := by
  induction p with
  | nil => intro s _; simp [startsWithCI]
  | cons a ps ih =>
    intro s h
    cases s with
    | nil => simp [startsWithCI] at h
    | cons c cs =>
      simp only [List.cons_append, startsWithCI, Bool.and_eq_true] at h ⊢
      exact ⟨h.1, ih h.2⟩

theorem search_none_of_noHttp : ∀ t, noHttpAnywhere t = true → m3u8SearchList t = none := by
  intro t
  induction t with
  | nil => intro _; rfl
  | cons c rest ih =>
    intro h
    simp only [noHttpAnywhere, Bool.and_eq_true, Bool.not_eq_true'] at h
    have hscheme : schemeSplit (c :: rest) = none := by
      unfold schemeSplit
      rw [if_neg, if_neg]
      · intro hc
        have : startsWithCI "http".data (c :: rest) = true :=
          startsWithCI_of_append (p := "http".data) (q := "://".data) hc
        rw [h.1] at this
        exact absurd this (by decide)
      · intro hc
        have : startsWithCI "http".data (c :: rest) = true :=
          startsWithCI_of_append (p := "http".data) (q := "s://".data) hc
        rw [h.1] at this
        exact absurd this (by decide)
    simp only [m3u8SearchList, matchAt, matchAtFull, hscheme]
    exact ih h.2

/-- C1 (amended).  For every text input, when extract_m3u8_from_text
returns a URL, that URL is exactly the leftmost match of the manifest
pattern in the text (an explicit http(s)-scheme prefix, a nonempty body,
".m3u8" case-insensitively, an optional query of non-delimiter
characters), returned unchanged.  The amendment: the matched ".m3u8" is a
case-insensitive suffix of the returned string before its optional "?"
query, but it need not lie in the path component of the URL — when the
body contains "?" or "#" the ".m3u8" can fall in the query or fragment, so
the original claim's "path ends in .m3u8" fails (see the counterexample). -/
theorem claim_C1_amended (text : String) (base : Option String) (u : String)
    (h : extract_m3u8_from_text text base = some u) :
    (∃ i, matchAt (text.data.drop i) = some u.data ∧
      ∀ j, j < i → matchAt (text.data.drop j) = none) ∧ m3u8UrlShape u.data := by
  obtain ⟨hsearch, hshape⟩ := extract_characterization h
  exact ⟨m3u8Search_first _ _ hsearch, hshape⟩

/-- C1 witness: on a concrete text the extractor returns the first match,
and the match has the structural shape. -/
theorem claim_C1_witness :
    (∃ i, matchAt (("x http://a.m3u8 y" : String).data.drop i) =
        some ("http://a.m3u8" : String).data ∧
      ∀ j, j < i → matchAt (("x http://a.m3u8 y" : String).data.drop j) = none) ∧
    m3u8UrlShape ("http://a.m3u8" : String).data :=
  claim_C1_amended "x http://a.m3u8 y" none "http://a.m3u8" (by decide)

/-- C1 counterexample: on the text "http://h/a?b.m3u8" the extractor
returns the whole string, whose urlparse path component is "/a", which
does not end in ".m3u8" — the claim that the returned URL's path ends in
".m3u8" is false. -/
theorem claim_C1_counterexample :
    extract_m3u8_from_text "http://h/a?b.m3u8" none = some "http://h/a?b.m3u8" ∧
    urlPath ("http://h/a?b.m3u8" : String).data = ("/a" : String).data ∧
    endsWithCI (".m3u8" : String).data (urlPath ("http://h/a?b.m3u8" : String).data) = false := by
  refine ⟨by decide, by decide, by decide⟩

/-- C2 (amended).  The extractor returns none whenever no suffix of the
text starts with "http" (case-insensitively) — in particular on every
protocol-relative input "//host/path.m3u8": the regex demands an explicit
http(s) scheme, so the protocol-relative rewrite branch of
extract_m3u8_from_text is unreachable and such inputs yield none, not an
https URL. -/
theorem claim_C2_amended (text : String) (base : Option String)
    (h : noHttpAnywhere text.data = true) :
    extract_m3u8_from_text text base = none := by
  unfold extract_m3u8_from_text
  by_cases ht : text = ""
  · rw [if_pos ht]
  · rw [if_neg ht, search_none_of_noHttp text.data h]

/-- C2 witness: the amended claim applied to a protocol-relative input. -/
theorem claim_C2_witness : extract_m3u8_from_text "//host/path.m3u8" none = none :=
  claim_C2_amended "//host/path.m3u8" none (by decide)

/-- C2 counterexample: the protocol-relative input
"//roxiestreams.live/live/stream.m3u8" is not normalized to an https URL;
extract_m3u8_from_text returns none on it, refuting the claim. -/
theorem claim_C2_counterexample :
    extract_m3u8_from_text "//roxiestreams.live/live/stream.m3u8" none = none := by
  decide

/-- C10.  The base argument of extract_m3u8_from_text never affects the
result: every regex match already carries an http(s) scheme, so the
protocol-relative rewrite and the base-join branch are unreachable. -/
theorem claim_C10_base_irrelevant (text : String) (base : Option String) :
    extract_m3u8_from_text text base = extract_m3u8_from_text text none := by
  unfold extract_m3u8_from_text
  by_cases ht : text = ""
  · simp only [if_pos ht]
  · simp only [if_neg ht]
    cases hs : m3u8SearchList text.data with
    | none => rfl
    | some v =>
      dsimp only []
      have hshape := search_shape hs
      rw [if_neg (shape_not_protocol_relative hshape)]
      cases base with
      | none => rfl
      | some b =>
        dsimp only []
        rw [if_neg]
        intro hb
        exact absurd hb.2 (urlScheme_ne_nil_of_shape hshape)

/-- C8.  The suffix-stripping rules, applied in their fixed order, take
"Team A vs Team B - Roxiestreams - Watch Live Sports" to
"Team A vs Team B": the first rule removes everything from the
brand-name separator onward rather than stopping at the first dash. -/
theorem claim_C8_suffix_order :
    clean_event_title "Team A vs Team B - Roxiestreams - Watch Live Sports" =
      "Team A vs Team B" := by
  decide

/-- C9.  No fetch failure or empty result is fatal: when the event page
fetch fails entirely (and the href is not itself a direct manifest
reference), get_event_m3u8 returns the empty list; and with zero
accumulated stream records both playlist renderings consist of exactly
the header (format marker, EPG-source reference, timestamp). -/
theorem claim_C9_nonfatal :
    (∀ (fetch : Fetch) (href a : String),
      extract_m3u8_from_text href (some (eventUrlOf href)) = none →
      fetch (eventUrlOf href) = none →
      get_event_m3u8 fetch href a = []) ∧
    (∀ ts : String, vlc_playlist ts [] = playlist_header ts ∧
      tivimate_playlist ts [] = playlist_header ts) := by
  constructor
  · intro fetch href a hdir hfetch
    unfold get_event_m3u8
    by_cases hh : href = ""
    · rw [if_pos hh]
    · rw [if_neg hh]
      dsimp only []
      rw [hdir, hfetch]
  · intro ts
    constructor
    · show playlist_header ts ++ String.join [] = playlist_header ts
      rw [show String.join ([] : List String) = "" from rfl, String.append_empty]
    · show playlist_header ts ++ String.join [] = playlist_header ts
      rw [show String.join ([] : List String) = "" from rfl, String.append_empty]

/-- C9 witness: a concrete everywhere-failing network yields an empty
resolver result, and the empty-record playlist is exactly the header. -/
theorem claim_C9_witness :
    get_event_m3u8 (fun _ => none) "ev" "" = [] ∧
    vlc_playlist "2026-10-12 00:00 UTC" [] = playlist_header "2026-10-12 00:00 UTC" :=
  ⟨claim_C9_nonfatal.1 (fun _ => none) "ev" "" (by decide) rfl,
   (claim_C9_nonfatal.2 "2026-10-12 00:00 UTC").1⟩

/-- C7 (code bug).  For a category page whose only candidate anchor has
href "/live/123-match.m3u8" and empty text, the run yields one
StreamRecord with the absolute manifest URL, but its title is the full
URL, not the slug "123 match": main calls
derive_title_from_page(None, fallback_url=href), and that function
returns "" whenever the soup argument is None — before ever looking at
fallback_url — so the documented URL-slug fallback is dead code at this
call site and the title falls through to the URL itself. -/
theorem claim_C7_slug_title_bug :
    (∀ fb : Option String, derive_title_from_page none fb = "") ∧
    main_streams fetchScenario7 =
      [⟨"misc", "Roxiestreams - https://roxiestreams.live/live/123-match.m3u8",
        "https://roxiestreams.live/live/123-match.m3u8"⟩] := by
  constructor
  · intro fb; rfl
  · decide

/-! ### Orchestrator dedup machinery -/

theorem event_step_eq_dedup (cat a href : String) (st : MainState) (p : String × String) :
    eventRecordStep cat a href st p =
      match eventProposal cat a href p with
      | none => st
      | some r => dedupStep st r := by
  unfold eventRecordStep eventProposal
  by_cases h1 : p.2 = "" ∨ ¬ strIn ".m3u8" p.2 = true
  · rw [if_pos h1, if_pos h1]
  · rw [if_neg h1, if_neg h1]
    dsimp only []
    by_cases h2 : pyOrOptS (extract_m3u8_from_text p.2 (some href)) p.2 = ""
    · rw [if_pos h2, if_pos h2]
    · rw [if_neg h2, if_neg h2]
      by_cases h3 : pyOrOptS (extract_m3u8_from_text p.2 (some href)) p.2 ∈ st.2
      · rw [if_pos h3]
        dsimp only [dedupStep]
        rw [if_pos h3]
      · rw [if_neg h3]
        dsimp only [dedupStep]
        rw [if_neg h3]

theorem event_fold_eq_dedup (cat a href : String) :
    ∀ (found : List (String × String)) (st : MainState),
      found.foldl (eventRecordStep cat a href) st =
        (found.filterMap (eventProposal cat a href)).foldl dedupStep st := by
  intro found
  induction found with
  | nil => intro st; rfl
  | cons p ps ih =>
    intro st
    rw [List.foldl_cons, List.filterMap_cons, event_step_eq_dedup]
    cases eventProposal cat a href p with
    | none => exact ih st
    | some r => rw [List.foldl_cons]; exact ih (dedupStep st r)

theorem candidateStep_eq_dedup (fetch : Fetch) (cat : String) (st : MainState)
    (cand : String × String) :
    candidateStep fetch cat st cand = (candProposals fetch cat cand).foldl dedupStep st := by
  unfold candidateStep candProposals
  by_cases hm : strIn ".m3u8" cand.2 = true
  · rw [if_pos hm, if_pos hm]
    unfold directProposals
    dsimp only []
    by_cases h2 : pyOrOptS (extract_m3u8_from_text cand.2 (some cand.2)) cand.2 = ""
    · rw [if_neg (fun hc => hc.1 h2), if_neg (fun hne => hne h2)]
      rfl
    · rw [if_pos h2, List.foldl_cons, List.foldl_nil]
      unfold dedupStep
      dsimp only []
      by_cases h3 : pyOrOptS (extract_m3u8_from_text cand.2 (some cand.2)) cand.2 ∈ st.2
      · rw [if_neg (fun hc => hc.2 h3), if_pos h3]
      · rw [if_pos ⟨h2, h3⟩, if_neg h3]
  · rw [if_neg hm, if_neg hm]
    exact event_fold_eq_dedup cat cand.1 cand.2 (get_event_m3u8 fetch cand.2 cand.1) st

theorem foldl_over_flatten {α : Type} (g : MainState → α → MainState) :
    ∀ (ls : List (List α)) (st : MainState),
      ls.foldl (fun st l => l.foldl g st) st = ls.flatten.foldl g st := by
  intro ls
  induction ls with
  | nil => intro st; rfl
  | cons l rest ih =>
    intro st
    rw [List.foldl_cons, List.flatten_cons, List.foldl_append]
    exact ih (l.foldl g st)

theorem main_streams_eq_firstOcc (fetch : Fetch) :
    main_streams fetch = firstOccByUrl (allProposals fetch) := by
  unfold main_streams firstOccByUrl allProposals
  have step1 : ∀ (cands : List (String × String)) (cat : String) (st : MainState),
      cands.foldl (candidateStep fetch cat) st =
        ((cands.map (candProposals fetch cat)).flatten).foldl dedupStep st := by
    intro cands cat
    induction cands with
    | nil => intro st; rfl
    | cons c cs ih =>
      intro st
      rw [List.foldl_cons, List.map_cons, List.flatten_cons, List.foldl_append,
        candidateStep_eq_dedup]
      exact ih _
  have step2 : ∀ (cats : List String) (st : MainState),
      cats.foldl (fun st cat =>
          (get_category_event_candidates fetch cat).foldl (candidateStep fetch cat) st) st =
        ((cats.map (fun cat =>
          (((get_category_event_candidates fetch cat).map
            (candProposals fetch cat)).flatten))).flatten).foldl dedupStep st := by
    intro cats
    induction cats with
    | nil => intro st; rfl
    | cons c cs ih =>
      intro st
      rw [List.foldl_cons, List.map_cons, List.flatten_cons, List.foldl_append, step1]
      exact ih _
  rw [step2]

theorem dedup_fold_invariant :
    ∀ (rs : List StreamRecord) (st : MainState),
      (st.1.map (fun r => r.manifestUrl)).Nodup →
      (∀ v, v ∈ st.2 ↔ v ∈ st.1.map (fun r => r.manifestUrl)) →
      ((rs.foldl dedupStep st).1.map (fun r => r.manifestUrl)).Nodup ∧
      (∀ v, v ∈ (rs.foldl dedupStep st).2 ↔
        v ∈ (rs.foldl dedupStep st).1.map (fun r => r.manifestUrl)) := by
  intro rs
  induction rs with
  | nil => intro st h1 h2; exact ⟨h1, h2⟩
  | cons x xs ih =>
    intro st h1 h2
    rw [List.foldl_cons]
    unfold dedupStep
    by_cases hx : x.manifestUrl ∈ st.2
    · rw [if_pos hx]
      exact ih st h1 h2
    · rw [if_neg hx]
      refine ih _ ?_ ?_
      · rw [List.map_append]
        rw [List.nodup_append]
        refine ⟨h1, by simp, ?_⟩
        intro v hv hv2
        simp only [List.map_cons, List.map_nil, List.mem_cons, List.not_mem_nil,
          or_false] at hv2
        subst hv2
        exact hx ((h2 _).mpr hv)
      · intro v
        simp only [List.mem_cons, List.map_append, List.mem_append, List.map_cons,
          List.map_nil, List.mem_singleton]
        constructor
        · rintro (hv | hv)
          · subst hv; simp
          · exact Or.inl ((h2 v).mp hv)
        · rintro (hv | hv)
          · exact Or.inr ((h2 v).mpr hv)
          · simp only [List.mem_cons, List.not_mem_nil, or_false] at hv
            exact Or.inl hv

theorem dedup_fold_mem :
    ∀ (rs : List StreamRecord) (st : MainState) (r : StreamRecord),
      r ∈ (rs.foldl dedupStep st).1 → r ∈ st.1 ∨ r ∈ rs := by
  intro rs
  induction rs with
  | nil => intro st r h; exact Or.inl h
  | cons x xs ih =>
    intro st r h
    rw [List.foldl_cons] at h
    rcases ih _ r h with hmem | hmem
    · unfold dedupStep at hmem
      by_cases hx : x.manifestUrl ∈ st.2
      · rw [if_pos hx] at hmem
        exact Or.inl hmem
      · rw [if_neg hx] at hmem
        dsimp only [] at hmem
        rcases List.mem_append.mp hmem with h1 | h1
        · exact Or.inl h1
        · simp only [List.mem_singleton] at h1
          exact Or.inr (by simp [h1])
    · exact Or.inr (by simp [hmem])

/-- C3.  Across one whole run, the manifest URLs of the accumulated
StreamRecords contain no duplicates, and the accumulated list is exactly
the first-occurrence-per-URL filtering of the full proposal stream (every
category, every candidate, in processing order) — so when two candidates
resolve to the same manifest URL, exactly one record is produced and it is
the first encounter's record (category, title and all). -/
theorem claim_C3_global_dedup (fetch : Fetch) :
    ((main_streams fetch).map (fun r => r.manifestUrl)).Nodup ∧
    main_streams fetch = firstOccByUrl (allProposals fetch) := by
  constructor
  · rw [main_streams_eq_firstOcc]
    unfold firstOccByUrl
    exact (dedup_fold_invariant (allProposals fetch) ([], []) (by simp) (by simp)).1
  · exact main_streams_eq_firstOcc fetch

/-! ### Every record URL contains ".m3u8" (case-insensitively) -/

theorem startsWithEq_imp_CI : ∀ p s : List Char,
    startsWithEq p s = true → startsWithCI p s = true := by
  intro p
  induction p with
  | nil => intro s _; simp [startsWithCI]
  | cons a ps ih =>
    intro s h
    cases s with
    | nil => simp [startsWithEq] at h
    | cons c cs =>
      simp only [startsWithEq, Bool.and_eq_true, decide_eq_true_eq] at h
      simp only [startsWithCI, Bool.and_eq_true, decide_eq_true_eq]
      exact ⟨by rw [h.1], ih cs h.2⟩

theorem containsSub_imp_CI : ∀ p s : List Char,
    containsSub p s = true → containsSubCI p s = true := by
  intro p s
  induction s with
  | nil => intro h; simpa [containsSub, containsSubCI] using h
  | cons c cs ih =>
    intro h
    simp only [containsSub, Bool.or_eq_true] at h
    simp only [containsSubCI, Bool.or_eq_true]
    rcases h with h | h
    · exact Or.inl (startsWithEq_imp_CI _ _ h)
    · exact Or.inr (ih h)

theorem containsSubCI_of_endsWithCI {p core : List Char} (q : List Char)
    (h : endsWithCI p core = true) : containsSubCI p (core ++ q) = true := by
  unfold endsWithCI at h
  rw [startsWithCI_iff] at h
  obtain ⟨hlen, hmap⟩ := h
  have hsplit : core = (core.reverse.drop p.reverse.length).reverse ++
      (core.reverse.take p.reverse.length).reverse := by
    calc core = core.reverse.reverse := (List.reverse_reverse core).symm
    _ = (core.reverse.take p.reverse.length ++ core.reverse.drop p.reverse.length).reverse := by
        rw [List.take_append_drop]
    _ = (core.reverse.drop p.reverse.length).reverse ++
        (core.reverse.take p.reverse.length).reverse := List.reverse_append _ _
  rw [hsplit, List.append_assoc]
  refine containsSubCI_append _ q ?_
  have h2 := congrArg List.reverse hmap
  simpa [List.map_reverse] using h2

theorem shape_contains_m3u8 {u : List Char} (h : m3u8UrlShape u) :
    containsSubCI (".m3u8" : String).data u = true := by
  obtain ⟨_, core, q, hu, hend, _⟩ := h
  rw [hu]
  exact containsSubCI_of_endsWithCI q hend

theorem extract_contains_m3u8 {text : String} {base : Option String} {u : String}
    (h : extract_m3u8_from_text text base = some u) :
    containsSubCI (".m3u8" : String).data u.data = true :=
  shape_contains_m3u8 (extract_characterization h).2

theorem pyOrOptS_contains {o : Option String} {b : String} {base : Option String}
    {text : String} (ho : o = extract_m3u8_from_text text base)
    (hb : containsSubCI (".m3u8" : String).data b.data = true) :
    containsSubCI (".m3u8" : String).data (pyOrOptS o b).data = true := by
  cases o with
  | none => exact hb
  | some s =>
    unfold pyOrOptS
    dsimp only []
    by_cases hs : s = ""
    · rw [if_pos hs]; exact hb
    · rw [if_neg hs]
      exact extract_contains_m3u8 ho.symm

theorem proposal_contains (fetch : Fetch) (cat : String) (cand : String × String) :
    ∀ r ∈ candProposals fetch cat cand,
      containsSubCI (".m3u8" : String).data r.manifestUrl.data = true := by
  intro r hr
  unfold candProposals at hr
  by_cases hm : strIn ".m3u8" cand.2 = true
  · rw [if_pos hm] at hr
    unfold directProposals at hr
    dsimp only [] at hr
    by_cases h2 : pyOrOptS (extract_m3u8_from_text cand.2 (some cand.2)) cand.2 = ""
    · rw [if_neg (fun hne => hne h2)] at hr
      simp at hr
    · rw [if_pos h2] at hr
      simp only [List.mem_singleton] at hr
      subst hr
      exact pyOrOptS_contains rfl (containsSub_imp_CI _ _ hm)
  · rw [if_neg hm] at hr
    obtain ⟨p, hp, hep⟩ := List.mem_filterMap.mp hr
    unfold eventProposal at hep
    by_cases h1 : p.2 = "" ∨ ¬ strIn ".m3u8" p.2 = true
    · rw [if_pos h1] at hep; simp at hep
    · rw [if_neg h1] at hep
      dsimp only [] at hep
      push_neg at h1
      by_cases h2 : pyOrOptS (extract_m3u8_from_text p.2 (some cand.2)) p.2 = ""
      · rw [if_pos h2] at hep; simp at hep
      · rw [if_neg h2] at hep
        injection hep with hep
        subst hep
        exact pyOrOptS_contains rfl
          (containsSub_imp_CI _ _ (Bool.of_not_eq_false (by simpa using h1.2)))

/-- C4 (amended).  Every StreamRecord accumulated by the orchestrator has
a manifestUrl that contains ".m3u8" case-insensitively.  The amendment:
the URL is not guaranteed to be absolute or scheme-qualified, and its path
component need not end in a ".m3u8" segment — a candidate href that
contains ".m3u8" but does not match the extraction pattern is used
verbatim as the manifest URL (see the counterexample). -/
theorem claim_C4_amended (fetch : Fetch) (r : StreamRecord)
    (h : r ∈ main_streams fetch) :
    containsSubCI (".m3u8" : String).data r.manifestUrl.data = true := by
  rw [main_streams_eq_firstOcc] at h
  unfold firstOccByUrl at h
  rcases dedup_fold_mem _ _ _ h with h0 | h0
  · simp at h0
  · unfold allProposals at h0
    rw [List.mem_flatten] at h0
    obtain ⟨l, hl, hrl⟩ := h0
    rw [List.mem_map] at hl
    obtain ⟨cat, _, hcat⟩ := hl
    subst hcat
    rw [List.mem_flatten] at hrl
    obtain ⟨l2, hl2, hrl2⟩ := hrl
    rw [List.mem_map] at hl2
    obtain ⟨cand, _, hcand⟩ := hl2
    subst hcand
    exact proposal_contains fetch cat cand r hrl2

/-- C4 witness: a concrete run with one direct manifest anchor, whose
record URL contains ".m3u8". -/
theorem claim_C4_witness :
    containsSubCI (".m3u8" : String).data
      ("http://cdn.host/live/a.m3u8" : String).data = true :=
  claim_C4_amended fetchScenario4w
    ⟨"misc", "Roxiestreams - Game", "http://cdn.host/live/a.m3u8"⟩ (by decide)

/-- C4 counterexample: with a category anchor href "httpx.m3u8" (it starts
with "http", so the crawler takes it verbatim, and it contains ".m3u8", so
main builds a record from it although the extractor does not match it) the
accumulated record's manifestUrl is "httpx.m3u8" — a relative reference
with an empty urlparse scheme, neither absolute nor scheme-qualified. -/
theorem claim_C4_counterexample :
    main_streams fetchScenario4 =
      [⟨"misc", "Roxiestreams - httpx.m3u8", "httpx.m3u8"⟩] ∧
    urlScheme ("httpx.m3u8" : String).data = [] :=
  ⟨by decide, by decide⟩

/-! ### Iframe recursion depth -/

theorem iframe_fold_congr (fetch fetch2 : Fetch) (eu bt : String) :
    ∀ (l : List IFrameTag) (st : ScanState),
      (∀ ifr ∈ l, fetch (urljoin eu (pyStrip ifr.src)) =
        fetch2 (urljoin eu (pyStrip ifr.src))) →
      l.foldl (iframeStep fetch eu bt) st = l.foldl (iframeStep fetch2 eu bt) st := by
  intro l
  induction l with
  | nil => intro st _; rfl
  | cons x xs ih =>
    intro st h
    rw [List.foldl_cons, List.foldl_cons]
    have hx : iframeStep fetch eu bt st x = iframeStep fetch2 eu bt st x := by
      unfold iframeStep
      dsimp only []
      rw [h x (by simp)]
    rw [hx]
    exact ih _ (fun ifr hifr => h ifr (by simp [hifr]))

/-- C5.  EventResolver follows iframes to a recursion depth of exactly
one: the result of get_event_m3u8 depends on the network only at the event
URL and at the iframe URLs of the event page's own document.  Two
environments that agree there — however much they differ behind iframes
nested inside an iframe's document — produce identical results, so a
manifest reachable only through a nested iframe is never discovered and
no iframe found inside an iframe's own document is ever fetched. -/
theorem claim_C5_iframe_depth_one (fetch fetch2 : Fetch) (href a : String)
    (h1 : fetch (eventUrlOf href) = fetch2 (eventUrlOf href))
    (h2 : ∀ d t, fetch (eventUrlOf href) = some (d, t) →
      ∀ ifr ∈ d.iframes,
        fetch (urljoin (eventUrlOf href) (pyStrip ifr.src)) =
          fetch2 (urljoin (eventUrlOf href) (pyStrip ifr.src))) :
    get_event_m3u8 fetch href a = get_event_m3u8 fetch2 href a := by
  unfold get_event_m3u8
  by_cases hh : href = ""
  · simp only [if_pos hh]
  · simp only [if_neg hh]
    cases hd : extract_m3u8_from_text href (some (eventUrlOf href)) with
    | some direct => rfl
    | none =>
      rw [← h1]
      cases hf : fetch (eventUrlOf href) with
      | none => rfl
      | some pr =>
        obtain ⟨soup, html_text⟩ := pr
        dsimp only []
        rw [iframe_fold_congr fetch fetch2 (eventUrlOf href) _ soup.iframes _
          (h2 soup html_text hf)]

/-- C5 witness: two concrete environments differing only in what a nested
iframe would serve (one hides a manifest behind an iframe found inside the
fetched iframe's document, the other serves nothing there) make
get_event_m3u8 produce identical results. -/
theorem claim_C5_witness :
    get_event_m3u8 fetchC5a "ev" "" = get_event_m3u8 fetchC5b "ev" "" := by
  apply claim_C5_iframe_depth_one
  · rfl
  · intro d t h ifr hifr
    have he : fetchC5a (eventUrlOf "ev") = some (docEventC5, "event page") := by decide
    rw [he] at h
    injection h with h
    injection h with hd ht
    subst hd
    simp only [docEventC5, List.mem_singleton] at hifr
    subst hifr
    decide

/-! ### Title-cleaning pipeline: basic facts -/

theorem unescapeAux_id : ∀ (fuel : Nat) (t : List Char), (∀ c ∈ t, c ≠ '&') →
    unescapeAux fuel t = t := by
  intro fuel
  induction fuel with
  | zero => intro t _; rfl
  | succ n ih =>
    intro t h
    cases t with
    | nil => rfl
    | cons c rest =>
      unfold unescapeAux
      dsimp only []
      rw [if_neg (h c (by simp))]
      rw [ih rest (fun d hd => h d (by simp [hd]))]

theorem unescapeL_id {t : List Char} (h : '&' ∉ t) : unescapeL t = t :=
  unescapeAux_id t.length t (fun c hc hce => h (hce ▸ hc))

theorem dropWhile_suffix_ex (p : Char → Bool) : ∀ t : List Char, ∃ u, u ++ t.dropWhile p = t := by
  intro t
  induction t with
  | nil => exact ⟨[], rfl⟩
  | cons c rest ih =>
    by_cases hc : p c = true
    · obtain ⟨u, hu⟩ := ih
      exact ⟨c :: u, by simp [List.dropWhile_cons, hc, hu]⟩
    · exact ⟨[], by simp [List.dropWhile_cons, hc]⟩

theorem trimRight_prefix_ex (p : Char → Bool) (t : List Char) :
    ∃ r, trimRightL p t ++ r = t := by
  obtain ⟨u, hu⟩ := dropWhile_suffix_ex p t.reverse
  refine ⟨u.reverse, ?_⟩
  unfold trimRightL
  have h2 := congrArg List.reverse hu
  simpa [List.reverse_append] using h2

theorem mem_dropWhile {p : Char → Bool} {t : List Char} {c : Char}
    (h : c ∈ t.dropWhile p) : c ∈ t := by
  obtain ⟨u, hu⟩ := dropWhile_suffix_ex p t
  rw [← hu]
  simp [h]

theorem mem_trimRight {p : Char → Bool} {t : List Char} {c : Char}
    (h : c ∈ trimRightL p t) : c ∈ t := by
  obtain ⟨r, hr⟩ := trimRight_prefix_ex p t
  rw [← hr]
  simp [h]

theorem mem_pyStrip {t : List Char} {c : Char} (h : c ∈ pyStripL t) : c ∈ t :=
  mem_dropWhile (mem_trimRight h)

theorem mem_collapseAux : ∀ (t : List Char) (s q : Bool) (c : Char),
    c ∈ collapseAux t s q → c ∈ t ∨ c = ' ' := by
  intro t
  induction t with
  | nil => intro s q c h; simp [collapseAux] at h
  | cons a rest ih =>
    intro s q c h
    unfold collapseAux at h
    by_cases ha : isPySpace a = true
    · rw [if_pos ha] at h
      rcases ih s true c h with h1 | h1
      · exact Or.inl (by simp [h1])
      · exact Or.inr h1
    · rw [if_neg ha] at h
      by_cases hsq : s = true ∧ q = true
      · rw [if_pos hsq] at h
        simp only [List.cons_append, List.mem_cons] at h
        rcases h with h1 | h1 | h1
        · exact Or.inr h1
        · exact Or.inl (by simp [h1])
        · rcases ih true false c h1 with h2 | h2
          · exact Or.inl (by simp [h2])
          · exact Or.inr h2
      · rw [if_neg hsq] at h
        simp only [List.cons_append, List.nil_append, List.mem_cons] at h
        rcases h with h1 | h1
        · exact Or.inl (by simp [h1])
        · rcases ih true false c h1 with h2 | h2
          · exact Or.inl (by simp [h2])
          · exact Or.inr h2

theorem space_collapseAux : ∀ (t : List Char) (s q : Bool) (c : Char),
    c ∈ collapseAux t s q → isPySpace c = true → c = ' ' := by
  intro t
  induction t with
  | nil => intro s q c h; simp [collapseAux] at h
  | cons a rest ih =>
    intro s q c h hsp
    unfold collapseAux at h
    by_cases ha : isPySpace a = true
    · rw [if_pos ha] at h
      exact ih s true c h hsp
    · rw [if_neg ha] at h
      by_cases hsq : s = true ∧ q = true
      · rw [if_pos hsq] at h
        simp only [List.cons_append, List.mem_cons] at h
        rcases h with h1 | h1 | h1
        · exact h1
        · subst h1; rw [hsp] at ha; exact absurd rfl ha
        · exact ih true false c h1 hsp
      · rw [if_neg hsq] at h
        simp only [List.cons_append, List.nil_append, List.mem_cons] at h
        rcases h with h1 | h1
        · subst h1; rw [hsp] at ha; exact absurd rfl ha
        · exact ih true false c h1 hsp

theorem subDash_prefix_ex (lit : List Char) : ∀ t : List Char,
    ∃ r, subDashLit lit t ++ r = t := by
  intro t
  induction t with
  | nil => exact ⟨[], rfl⟩
  | cons c rest ih =>
    unfold subDashLit
    by_cases hm : matchesDashLit lit (c :: rest) = true
    · rw [if_pos hm]
      exact ⟨c :: rest, rfl⟩
    · rw [if_neg hm]
      obtain ⟨r, hr⟩ := ih
      exact ⟨r, by simp [hr]⟩

theorem subPipe_prefix_ex : ∀ t : List Char, ∃ r, subPipe t ++ r = t := by
  intro t
  induction t with
  | nil => exact ⟨[], rfl⟩
  | cons c rest ih =>
    unfold subPipe
    by_cases hm : matchesPipe (c :: rest) = true
    · rw [if_pos hm]
      exact ⟨c :: rest, rfl⟩
    · rw [if_neg hm]
      obtain ⟨r, hr⟩ := ih
      exact ⟨r, by simp [hr]⟩

theorem stripSet_infix_ex (t : List Char) : ∃ u v, u ++ stripSetL t ++ v = t := by
  unfold stripSetL
  obtain ⟨r, hr⟩ := trimRight_prefix_ex isStripSetChar (t.dropWhile isStripSetChar)
  obtain ⟨u, hu⟩ := dropWhile_suffix_ex isStripSetChar t
  exact ⟨u, r, by rw [List.append_assoc, hr, hu]⟩

theorem infix_through_pre {y t s : List Char} (h1 : ∃ u v, u ++ y ++ v = t)
    (h2 : ∃ r, t ++ r = s) : ∃ u v, u ++ y ++ v = s := by
  obtain ⟨u, v, huv⟩ := h1
  obtain ⟨r, hr⟩ := h2
  exact ⟨u, v ++ r, by rw [← hr, ← huv]; simp⟩

theorem mem_of_infix_part {y t : List Char} {c : Char} (h : ∃ u v, u ++ y ++ v = t)
    (hc : c ∈ y) : c ∈ t := by
  obtain ⟨u, v, huv⟩ := h
  rw [← huv]
  simp [hc]

/-! ### Suffix-stripping rules: matching lemmas -/

theorem dropWhile_append_cases (p : Char → Bool) : ∀ l r : List Char,
    (l ++ r).dropWhile p = (if l.dropWhile p = [] then r.dropWhile p else l.dropWhile p ++ r) := by
  intro l
  induction l with
  | nil => intro r; simp
  | cons c cs ih =>
    intro r
    by_cases hc : p c = true
    · simp only [List.cons_append, List.dropWhile_cons, hc, if_true]
      exact ih r
    · simp [List.dropWhile_cons, hc]

theorem startsWithCI_extend {lit x : List Char} (r : List Char)
    (h : startsWithCI lit x = true) : startsWithCI lit (x ++ r) = true := by
  induction lit generalizing x with
  | nil => simp [startsWithCI]
  | cons a ps ih =>
    cases x with
    | nil => simp [startsWithCI] at h
    | cons c cs =>
      simp only [startsWithCI, Bool.and_eq_true] at h ⊢
      exact ⟨h.1, ih h.2⟩

theorem matchesDash_extend {lit t : List Char} (r : List Char) (hlit : lit ≠ [])
    (h : matchesDashLit lit t = true) : matchesDashLit lit (t ++ r) = true := by
  unfold matchesDashLit at h ⊢
  rw [dropWhile_append_cases]
  cases hd : t.dropWhile isPySpace with
  | nil => rw [hd] at h; simp at h
  | cons d ds =>
    rw [hd] at h
    rw [if_neg (by simp)]
    dsimp only [] at h
    simp only [Bool.and_eq_true, decide_eq_true_eq] at h
    obtain ⟨hdc, hsw⟩ := h
    subst hdc
    simp only [List.cons_append]
    simp only [Bool.and_eq_true, decide_eq_true_eq]
    refine ⟨trivial, ?_⟩
    rw [dropWhile_append_cases]
    cases hds : ds.dropWhile isPySpace with
    | nil =>
      rw [hds] at hsw
      cases lit with
      | nil => exact absurd rfl hlit
      | cons a as => simp [startsWithCI] at hsw
    | cons e es =>
      rw [hds] at hsw
      rw [if_neg (by simp)]
      exact startsWithCI_extend r hsw

theorem matchesDash_space {lit : List Char} {c : Char} (s : List Char)
    (hc : isPySpace c = true) :
    matchesDashLit lit (c :: s) = matchesDashLit lit s := by
  unfold matchesDashLit
  rw [List.dropWhile_cons, if_pos hc]

theorem matchesDash_nil (lit : List Char) : matchesDashLit lit [] = false := rfl

theorem subDash_nomatch (lit : List Char) (hlit : lit ≠ []) : ∀ (t : List Char) (i : Nat),
    matchesDashLit lit ((subDashLit lit t).drop i) = false := by
  intro t
  induction t with
  | nil => intro i; simp [subDashLit, matchesDash_nil]
  | cons c rest ih =>
    intro i
    unfold subDashLit
    by_cases hm : matchesDashLit lit (c :: rest) = true
    · rw [if_pos hm]
      simp [matchesDash_nil]
    · rw [if_neg hm]
      cases i with
      | succ j => simpa using ih j
      | zero =>
        simp only [List.drop_zero]
        by_contra hcon
        rw [Bool.not_eq_false] at hcon
        obtain ⟨r, hr⟩ := subDash_prefix_ex lit rest
        have hext : matchesDashLit lit ((c :: subDashLit lit rest) ++ r) = true :=
          matchesDash_extend r hlit hcon
        rw [List.cons_append, hr] at hext
        exact absurd hext hm

theorem subDash_id (lit : List Char) : ∀ t : List Char,
    (∀ i, matchesDashLit lit (t.drop i) = false) → subDashLit lit t = t := by
  intro t
  induction t with
  | nil => intro _; rfl
  | cons c rest ih =>
    intro h
    unfold subDashLit
    have h0 : matchesDashLit lit (c :: rest) = false := by simpa using h 0
    rw [if_neg (by simp [h0])]
    rw [ih (fun i => by simpa using h (i + 1))]

theorem nomatch_of_infix_part {lit t y : List Char} (hlit : lit ≠ [])
    (hinf : ∃ u v, u ++ y ++ v = t)
    (ht : ∀ i, matchesDashLit lit (t.drop i) = false) :
    ∀ i, matchesDashLit lit (y.drop i) = false := by
  intro i
  by_cases hi : i ≤ y.length
  · obtain ⟨u, v, huv⟩ := hinf
    by_contra hcon
    rw [Bool.not_eq_false] at hcon
    have hext : matchesDashLit lit (y.drop i ++ v) = true := matchesDash_extend v hlit hcon
    have hdrop : t.drop (u.length + i) = y.drop i ++ v := by
      rw [← huv, List.append_assoc, List.drop_append_eq_append_drop]
      have h1 : u.drop (u.length + i) = [] := List.drop_eq_nil_of_le (by omega)
      have h2 : u.length + i - u.length = i := by omega
      rw [h1, h2, List.drop_append_eq_append_drop]
      have h3 : i - y.length = 0 := by omega
      rw [h3, List.drop_zero]
      simp
    rw [← hdrop] at hext
    rw [ht (u.length + i)] at hext
    exact absurd hext (by simp)
  · have hnil : y.drop i = [] := List.drop_eq_nil_of_le (by omega)
    rw [hnil, matchesDash_nil]

/-! ### Pipe rule lemmas -/

theorem matchesPipe_mem {t : List Char} (h : matchesPipe t = true) : '|' ∈ t := by
  unfold matchesPipe at h
  cases hd : t.dropWhile isPySpace with
  | nil => rw [hd] at h; simp at h
  | cons c cs =>
    rw [hd] at h
    simp only [List.head?_cons, Option.some.injEq, decide_eq_true_eq] at h
    subst h
    exact mem_dropWhile (by rw [hd]; simp)

theorem subPipe_noPipe : ∀ t : List Char, '|' ∉ subPipe t := by
  intro t
  induction t with
  | nil => simp [subPipe]
  | cons c rest ih =>
    unfold subPipe
    by_cases hm : matchesPipe (c :: rest) = true
    · rw [if_pos hm]; simp
    · rw [if_neg hm]
      intro hmem
      rcases List.mem_cons.mp hmem with hc | hc
      · subst hc
        apply hm
        unfold matchesPipe
        rw [List.dropWhile_cons, if_neg (by decide)]
        rfl
      · exact ih hc

theorem subPipe_id : ∀ t : List Char, '|' ∉ t → subPipe t = t := by
  intro t
  induction t with
  | nil => intro _; rfl
  | cons c rest ih =>
    intro h
    unfold subPipe
    rw [if_neg (fun hm => h (matchesPipe_mem hm))]
    rw [ih (fun hc => h (by simp [hc]))]

/-! ### Double-space lemmas -/

theorem hasDDb_iff : ∀ l : List Char, hasDDb l = true ↔ ∃ u v, l = u ++ ' ' :: ' ' :: v := by
  intro l
  induction l with
  | nil =>
    constructor
    · intro h; exact Bool.noConfusion h
    · rintro ⟨u, v, huv⟩; cases u <;> simp_all
  | cons a l ih =>
    cases l with
    | nil =>
      constructor
      · intro h
        have hf : hasDDb [a] = false := rfl
        rw [hf] at h
        exact Bool.noConfusion h
      · rintro ⟨u, v, huv⟩
        cases u with
        | nil => simp at huv
        | cons x xs => cases xs <;> simp_all
    | cons b r =>
      rw [show hasDDb (a :: b :: r) =
          ((decide (a = ' ') && decide (b = ' ')) || hasDDb (b :: r)) from rfl]
      simp only [Bool.or_eq_true, Bool.and_eq_true, decide_eq_true_eq, ih]
      constructor
      · rintro (⟨ha, hb⟩ | ⟨u, v, huv⟩)
        · exact ⟨[], r, by simp [ha, hb]⟩
        · exact ⟨a :: u, v, by simp [huv]⟩
      · rintro ⟨u, v, huv⟩
        cases u with
        | nil =>
          injection huv with h1 h2
          injection h2 with h2a h2b
          exact Or.inl ⟨h1, h2a⟩
        | cons x xs =>
          injection huv with h1 h2
          exact Or.inr ⟨xs, v, h2⟩

theorem hasDD_of_infix_part {y t : List Char} (hinf : ∃ u v, u ++ y ++ v = t)
    (hy : hasDDb y = true) : hasDDb t = true := by
  obtain ⟨u, v, huv⟩ := hinf
  obtain ⟨a, b, hab⟩ := (hasDDb_iff y).mp hy
  refine (hasDDb_iff t).mpr ⟨u ++ a, b ++ v, ?_⟩
  rw [← huv, hab]
  simp

theorem hasDD_tail {a : Char} {l : List Char} (h : hasDDb (a :: l) = false) :
    hasDDb l = false := by
  cases l with
  | nil => rfl
  | cons b r =>
    simp only [hasDDb, Bool.or_eq_false_iff] at h
    exact h.2

theorem hasDD_cons_ne_space {a : Char} {l : List Char} (ha : a ≠ ' ') :
    hasDDb (a :: l) = hasDDb l := by
  cases l with
  | nil => simp [hasDDb]
  | cons b r =>
    simp only [hasDDb]
    rw [show (decide (a = ' ') && decide (b = ' ')) = false by simp [ha]]
    simp

/-! ### Collapse and strip identity lemmas -/

theorem collapse_noDD : ∀ (t : List Char) (s q : Bool), hasDDb (collapseAux t s q) = false := by
  intro t
  induction t with
  | nil => intro s q; rfl
  | cons a rest ih =>
    intro s q
    unfold collapseAux
    by_cases ha : isPySpace a = true
    · rw [if_pos ha]
      exact ih s true
    · rw [if_neg ha]
      have hanesp : a ≠ ' ' := fun hc => ha (by rw [hc]; decide)
      by_cases hsq : s = true ∧ q = true
      · rw [if_pos hsq]
        simp only [List.cons_append, List.nil_append]
        rw [show hasDDb (' ' :: a :: collapseAux rest true false) =
            ((decide (' ' = ' ') && decide (a = ' ')) || hasDDb (a :: collapseAux rest true false))
          from rfl]
        rw [show (decide (' ' = ' ') && decide (a = ' ')) = false by simp [hanesp]]
        rw [hasDD_cons_ne_space hanesp]
        simp [ih true false]
      · rw [if_neg hsq]
        simp only [List.cons_append, List.nil_append]
        rw [hasDD_cons_ne_space hanesp]
        exact ih true false

theorem dropWhile_id_of_head {p : Char → Bool} : ∀ {t : List Char},
    (∀ c, t.head? = some c → p c = false) → t.dropWhile p = t := by
  intro t h
  cases t with
  | nil => rfl
  | cons c rest =>
    rw [List.dropWhile_cons, if_neg (by rw [h c rfl]; simp)]

theorem trimRight_id_of_last {p : Char → Bool} {t : List Char}
    (h : ∀ c, t.getLast? = some c → p c = false) : trimRightL p t = t := by
  unfold trimRightL
  rw [dropWhile_id_of_head, List.reverse_reverse]
  intro c hc
  exact h c (by rwa [← List.head?_reverse])

theorem head_dropWhile_not {p : Char → Bool} : ∀ {t : List Char} {c : Char},
    (t.dropWhile p).head? = some c → p c = false := by
  intro t
  induction t with
  | nil => intro c h; simp at h
  | cons a rest ih =>
    intro c h
    rw [List.dropWhile_cons] at h
    by_cases ha : p a = true
    · rw [if_pos ha] at h
      exact ih h
    · rw [if_neg ha] at h
      simp only [List.head?_cons, Option.some.injEq] at h
      subst h
      simpa using ha

theorem head_of_pre {l t : List Char} {c : Char} (hp : ∃ r, l ++ r = t)
    (h : l.head? = some c) : t.head? = some c := by
  obtain ⟨r, hr⟩ := hp
  cases l with
  | nil => simp at h
  | cons a as =>
    simp only [List.head?_cons, Option.some.injEq] at h
    subst h
    rw [← hr]
    rfl

theorem stripSet_head {t : List Char} {c : Char}
    (h : (stripSetL t).head? = some c) : isStripSetChar c = false := by
  unfold stripSetL at h
  have h2 := head_of_pre (trimRight_prefix_ex isStripSetChar (t.dropWhile isStripSetChar)) h
  exact head_dropWhile_not h2

theorem stripSet_last {t : List Char} {c : Char}
    (h : (stripSetL t).getLast? = some c) : isStripSetChar c = false := by
  unfold stripSetL trimRightL at h
  rw [List.getLast?_reverse] at h
  exact head_dropWhile_not h

theorem pyStripL_id {t : List Char}
    (hhead : ∀ c, t.head? = some c → isPySpace c = false)
    (hlast : ∀ c, t.getLast? = some c → isPySpace c = false) :
    pyStripL t = t := by
  unfold pyStripL
  rw [dropWhile_id_of_head hhead, trimRight_id_of_last hlast]

theorem stripSetL_id {t : List Char}
    (hhead : ∀ c, t.head? = some c → isStripSetChar c = false)
    (hlast : ∀ c, t.getLast? = some c → isStripSetChar c = false) :
    stripSetL t = t := by
  unfold stripSetL
  rw [dropWhile_id_of_head hhead, trimRight_id_of_last hlast]

theorem collapseAux_fixed : ∀ (n : Nat) (u : List Char), u.length ≤ n →
    (∀ c ∈ u, isPySpace c = true → c = ' ') →
    hasDDb u = false →
    u.getLast? ≠ some ' ' →
    collapseAux u true false = u := by
  intro n
  induction n with
  | zero =>
    intro u hlen _ _ _
    have hu : u = [] := List.eq_nil_of_length_eq_zero (by omega)
    subst hu
    rfl
  | succ n ih =>
    intro u hlen honly hdd hlast
    cases u with
    | nil => rfl
    | cons c rest =>
      by_cases hc : isPySpace c = true
      · have hcsp : c = ' ' := honly c (by simp) hc
        subst hcsp
        cases rest with
        | nil => exact absurd rfl hlast
        | cons d w =>
          have hd : d ≠ ' ' := by
            intro hdc
            subst hdc
            have : hasDDb (' ' :: ' ' :: w) =
                ((decide ((' ' : Char) = ' ') && decide ((' ' : Char) = ' ')) ||
                  hasDDb (' ' :: w)) := rfl
            rw [this] at hdd
            simp at hdd
          have hdnsp : isPySpace d = false := by
            by_cases h2 : isPySpace d = true
            · exact absurd (honly d (by simp) h2) hd
            · simpa using h2
          have hlw : w.getLast? ≠ some ' ' := by
            cases w with
            | nil => simp
            | cons e v =>
              rw [List.getLast?_cons_cons, List.getLast?_cons_cons] at hlast
              exact hlast
          unfold collapseAux
          rw [if_pos (by decide)]
          unfold collapseAux
          rw [if_neg (by simp [hdnsp]), if_pos ⟨rfl, rfl⟩]
          rw [ih w (by simp at hlen; omega)
            (fun e he hsp => honly e (by simp [he]) hsp)
            (hasDD_tail (hasDD_tail hdd)) hlw]
          simp
      · have hnsp : c ≠ ' ' := fun hcc => hc (by rw [hcc]; decide)
        have hlr : rest.getLast? ≠ some ' ' := by
          cases rest with
          | nil => simp
          | cons e v =>
            rw [List.getLast?_cons_cons] at hlast
            exact hlast
        unfold collapseAux
        rw [if_neg hc, if_neg (by simp)]
        rw [ih rest (by simp at hlen; omega)
          (fun e he hsp => honly e (by simp [he]) hsp)
          (hasDD_tail hdd) hlr]
        simp

theorem collapseL_fixed {u : List Char}
    (honly : ∀ c ∈ u, isPySpace c = true → c = ' ')
    (hdd : hasDDb u = false)
    (hhead : u.head? ≠ some ' ')
    (hlast : u.getLast? ≠ some ' ') :
    collapseL u = u := by
  unfold collapseL
  cases u with
  | nil => rfl
  | cons c rest =>
    have hc : isPySpace c = false := by
      by_cases h2 : isPySpace c = true
      · exfalso
        apply hhead
        rw [honly c (by simp) h2]
        rfl
      · simpa using h2
    have hlr : rest.getLast? ≠ some ' ' := by
      cases rest with
      | nil => simp
      | cons e v =>
        rw [List.getLast?_cons_cons] at hlast
        exact hlast
    unfold collapseAux
    rw [if_neg (by simp [hc]), if_neg (by simp)]
    rw [collapseAux_fixed rest.length rest (Nat.le_refl _)
      (fun e he hsp => honly e (by simp [he]) hsp)
      (hasDD_tail hdd) hlr]
    simp

/-! ### Idempotence of the cleaning pipeline on ampersand-free input -/

theorem mem_of_head?L {l : List Char} {c : Char} (h : l.head? = some c) : c ∈ l := by
  cases l with
  | nil => simp at h
  | cons a as =>
    simp only [List.head?_cons, Option.some.injEq] at h
    simp [h]

theorem mem_of_getLast?L {l : List Char} {c : Char} (h : l.getLast? = some c) : c ∈ l := by
  rw [← List.head?_reverse] at h
  have := mem_of_head?L h
  simpa using this

theorem cleanL_fixed (y : List Char)
    (hamp : '&' ∉ y)
    (honly : ∀ c ∈ y, isPySpace c = true → c = ' ')
    (hdd : hasDDb y = false)
    (hhead : ∀ c, y.head? = some c → isStripSetChar c = false)
    (hlast : ∀ c, y.getLast? = some c → isStripSetChar c = false)
    (hpipe : '|' ∉ y)
    (hm1 : ∀ i, matchesDashLit ("Roxiestreams" : String).data (y.drop i) = false)
    (hm2 : ∀ i, matchesDashLit ("Watch Live" : String).data (y.drop i) = false)
    (hm3 : ∀ i, matchesDashLit ("Watch" : String).data (y.drop i) = false)
    (hm4 : ∀ i, matchesDashLit ("Live Stream" : String).data (y.drop i) = false) :
    cleanL y = y := by
  have hnospc : ∀ c ∈ y, c ≠ ' ' → isPySpace c = false := by
    intro c hc hne
    by_cases h2 : isPySpace c = true
    · exact absurd (honly c hc h2) hne
    · simpa using h2
  have hheadsp : ∀ c, y.head? = some c → isPySpace c = false := by
    intro c hc
    refine hnospc c (mem_of_head?L hc) ?_
    intro hsp
    subst hsp
    exact absurd (hhead _ hc) (by decide)
  have hlastsp : ∀ c, y.getLast? = some c → isPySpace c = false := by
    intro c hc
    refine hnospc c (mem_of_getLast?L hc) ?_
    intro hsp
    subst hsp
    exact absurd (hlast _ hc) (by decide)
  unfold cleanL
  rw [unescapeL_id hamp]
  rw [pyStripL_id hheadsp hlastsp]
  rw [collapseL_fixed honly hdd
    (fun hc => absurd (hhead _ hc) (by decide))
    (fun hc => absurd (hlast _ hc) (by decide))]
  rw [subDash_id _ y hm1, subDash_id _ y hm2, subDash_id _ y hm3, subDash_id _ y hm4]
  rw [subPipe_id y hpipe]
  exact stripSetL_id hhead hlast

theorem cleanL_mem_w (x : List Char) :
    ∃ u v, u ++ cleanL x ++ v =
      collapseL (pyStripL (unescapeL x)) := by
  have h5 : ∃ u v, u ++ cleanL x ++ v =
      subPipe (subDashLit ("Live Stream" : String).data
        (subDashLit ("Watch" : String).data
          (subDashLit ("Watch Live" : String).data
            (subDashLit ("Roxiestreams" : String).data
              (collapseL (pyStripL (unescapeL x))))))) :=
    stripSet_infix_ex _
  have h4 := infix_through_pre h5 (subPipe_prefix_ex _)
  have h3 := infix_through_pre h4 (subDash_prefix_ex _ _)
  have h2 := infix_through_pre h3 (subDash_prefix_ex _ _)
  have h1 := infix_through_pre h2 (subDash_prefix_ex _ _)
  exact infix_through_pre h1 (subDash_prefix_ex _ _)

theorem cleanL_props (x : List Char) (hx : '&' ∉ x) :
    ('&' ∉ cleanL x) ∧
    (∀ c ∈ cleanL x, isPySpace c = true → c = ' ') ∧
    hasDDb (cleanL x) = false ∧
    (∀ c, (cleanL x).head? = some c → isStripSetChar c = false) ∧
    (∀ c, (cleanL x).getLast? = some c → isStripSetChar c = false) ∧
    ('|' ∉ cleanL x) ∧
    (∀ i, matchesDashLit ("Roxiestreams" : String).data ((cleanL x).drop i) = false) ∧
    (∀ i, matchesDashLit ("Watch Live" : String).data ((cleanL x).drop i) = false) ∧
    (∀ i, matchesDashLit ("Watch" : String).data ((cleanL x).drop i) = false) ∧
    (∀ i, matchesDashLit ("Live Stream" : String).data ((cleanL x).drop i) = false) := by
  have hw := cleanL_mem_w x
  have hmemw : ∀ c ∈ cleanL x, c ∈ collapseL (pyStripL (unescapeL x)) :=
    fun c hc => mem_of_infix_part hw hc
  have hmemx : ∀ c ∈ cleanL x, c ∈ x ∨ c = ' ' := by
    intro c hc
    rcases mem_collapseAux _ _ _ _ (hmemw c hc) with h | h
    · rw [unescapeL_id hx] at h
      exact Or.inl (mem_pyStrip h)
    · exact Or.inr h
  refine ⟨?_, ?_, ?_, ?_, ?_, ?_, ?_, ?_, ?_, ?_⟩
  · intro hmem
    rcases hmemx '&' hmem with h | h
    · exact hx h
    · exact absurd h (by decide)
  · intro c hc hsp
    exact space_collapseAux _ _ _ _ (hmemw c hc) hsp
  · by_contra hcon
    rw [Bool.not_eq_false] at hcon
    have := hasDD_of_infix_part hw hcon
    rw [show collapseL (pyStripL (unescapeL x)) =
      collapseAux (pyStripL (unescapeL x)) false false from rfl] at this
    rw [collapse_noDD] at this
    exact Bool.noConfusion this
  · intro c hc
    exact stripSet_head hc
  · intro c hc
    exact stripSet_last hc
  · intro hmem
    have h5 : ∃ u v, u ++ cleanL x ++ v =
        subPipe (subDashLit ("Live Stream" : String).data
          (subDashLit ("Watch" : String).data
            (subDashLit ("Watch Live" : String).data
              (subDashLit ("Roxiestreams" : String).data
                (collapseL (pyStripL (unescapeL x))))))) :=
      stripSet_infix_ex _
    exact subPipe_noPipe _ (mem_of_infix_part h5 hmem)
  · have h5 : ∃ u v, u ++ cleanL x ++ v =
        subPipe (subDashLit ("Live Stream" : String).data
          (subDashLit ("Watch" : String).data
            (subDashLit ("Watch Live" : String).data
              (subDashLit ("Roxiestreams" : String).data
                (collapseL (pyStripL (unescapeL x))))))) :=
      stripSet_infix_ex _
    have h4 := infix_through_pre h5 (subPipe_prefix_ex _)
    have h3 := infix_through_pre h4 (subDash_prefix_ex _ _)
    have h2 := infix_through_pre h3 (subDash_prefix_ex _ _)
    have h1 := infix_through_pre h2 (subDash_prefix_ex _ _)
    exact nomatch_of_infix_part (by decide) h1 (subDash_nomatch _ (by decide) _)
  · have h5 : ∃ u v, u ++ cleanL x ++ v =
        subPipe (subDashLit ("Live Stream" : String).data
          (subDashLit ("Watch" : String).data
            (subDashLit ("Watch Live" : String).data
              (subDashLit ("Roxiestreams" : String).data
                (collapseL (pyStripL (unescapeL x))))))) :=
      stripSet_infix_ex _
    have h4 := infix_through_pre h5 (subPipe_prefix_ex _)
    have h3 := infix_through_pre h4 (subDash_prefix_ex _ _)
    have h2 := infix_through_pre h3 (subDash_prefix_ex _ _)
    exact nomatch_of_infix_part (by decide) h2 (subDash_nomatch _ (by decide) _)
  · have h5 : ∃ u v, u ++ cleanL x ++ v =
        subPipe (subDashLit ("Live Stream" : String).data
          (subDashLit ("Watch" : String).data
            (subDashLit ("Watch Live" : String).data
              (subDashLit ("Roxiestreams" : String).data
                (collapseL (pyStripL (unescapeL x))))))) :=
      stripSet_infix_ex _
    have h4 := infix_through_pre h5 (subPipe_prefix_ex _)
    have h3 := infix_through_pre h4 (subDash_prefix_ex _ _)
    exact nomatch_of_infix_part (by decide) h3 (subDash_nomatch _ (by decide) _)
  · have h5 : ∃ u v, u ++ cleanL x ++ v =
        subPipe (subDashLit ("Live Stream" : String).data
          (subDashLit ("Watch" : String).data
            (subDashLit ("Watch Live" : String).data
              (subDashLit ("Roxiestreams" : String).data
                (collapseL (pyStripL (unescapeL x))))))) :=
      stripSet_infix_ex _
    have h4 := infix_through_pre h5 (subPipe_prefix_ex _)
    exact nomatch_of_infix_part (by decide) h4 (subDash_nomatch _ (by decide) _)

theorem cleanL_idem (x : List Char) (hx : '&' ∉ x) : cleanL (cleanL x) = cleanL x := by
  obtain ⟨h1, h2, h3, h4, h5, h6, h7, h8, h9, h10⟩ := cleanL_props x hx
  exact cleanL_fixed (cleanL x) h1 h2 h3 h4 h5 h6 h7 h8 h9 h10

/-- C6 (amended).  TitleNormalizer.clean is idempotent on every string
that contains no ampersand: clean(clean(x)) = clean(x) whenever the HTML
entity decoding step cannot fire.  The amendment is forced because
html.unescape is not idempotent on double-escaped entities, so neither is
clean (see the counterexample). -/
theorem claim_C6_amended (x : String) (hx : '&' ∉ x.data) :
    clean_event_title (clean_event_title x) = clean_event_title x := by
  unfold clean_event_title
  by_cases h0 : x = ""
  · simp only [if_pos h0]
    simp
  · simp only [if_neg h0]
    by_cases h1 : (⟨cleanL x.data⟩ : String) = ""
    · rw [if_pos h1, h1]
    · rw [if_neg h1]
      exact congrArg String.mk (cleanL_idem x.data hx)

/-- C6 witness: idempotence at a concrete ampersand-free title. -/
theorem claim_C6_witness :
    clean_event_title (clean_event_title "Team C at Team D  - Watch Live tonight") =
      clean_event_title "Team C at Team D  - Watch Live tonight" :=
  claim_C6_amended "Team C at Team D  - Watch Live tonight" (by decide)

/-- C6 counterexample: clean is not idempotent on the double-escaped
entity input: clean("&amp;amp;") is "&amp;" but cleaning again gives "&"
because html.unescape decodes one level of escaping per application. -/
theorem claim_C6_counterexample :
    clean_event_title (clean_event_title "&amp;amp;") ≠ clean_event_title "&amp;amp;" := by
  decide
